import Mathlib

/-!
Verification development for the index-selection engine of `sql/select.go`
(predicate-driven, cost-based index selection for a SQL table scan).

The Go source is embedded shallowly:

* `parser.Datum` values are modelled as natural numbers; the external
  order-preserving byte encoder (`encodeTableKey`, an external collaborator of
  this file) encodes a datum as a single "byte" of an unbounded alphabet, so a
  key is a `List Nat` compared lexicographically exactly as `bytes.Compare`
  compares real keys.  This keeps every property the code relies on: the
  encoding is order-preserving, prefix-free, `Key.Next` appends the minimal
  byte, and `PrefixEnd` increments the final byte.
* Go maps (`qvalueRangeMap`) are modelled as functions `ColumnID → Option _`;
  the only whole-map iteration in the source (the OR merge) is pointwise per
  column id, so map iteration order is irrelevant, as in Go.
* The `panic` in `assertStartOp`/`assertEndOp` is modelled by the `Option`
  returning `intersectChecked`/`unionChecked` wrappers (`none` = fatal abort);
  `intersect`/`union` below them are the behaviour on operators that pass the
  assertion, which is the only way the analyzer ever calls them.
* Floating point costs (`float64`) are modelled by exact rationals; the cost
  expressions of `analyzeRanges` involve one division of small integers, and
  the development only relies on order comparisons of costs.
-/

namespace SqlSelect

/-- A column identifier (`ColumnID` in the source). -/
abbrev ColumnID := Nat

/-- A SQL value (`parser.Datum`).  Modelled as a natural number; the external
encoding into keys is order preserving, so comparisons of encoded keys agree
with comparisons of these values. -/
abbrev Datum := Nat

/-- Comparison operators of `parser.ComparisonOp`.  Only `eq`, `lt`, `gt`,
`le`, `ge` take part in range analysis; `ne` and `otherOp` (LIKE, IN, ...) are
ignored by `analyzeComparisonExpr`.  The zero value of the Go type (used for
the empty `qvalueInfo`) is `EQ`. -/
inductive COp where
  | eq
  | lt
  | gt
  | le
  | ge
  | ne
  | otherOp
deriving DecidableEq, Repr

/-- `qvalueInfo` contains one end of a value range: a datum (or `none`, the
Go `nil`, meaning unconstrained) and a comparison operator.  The zero value in
Go is `{nil, EQ}`. -/
structure qvalueInfo where
  datum : Option Datum
  op : COp
deriving DecidableEq, Repr

instance : Inhabited qvalueInfo := ⟨⟨none, .eq⟩⟩

/-- `bytes.Compare (encodeTableKey nil a) (encodeTableKey nil b)` for two
present datums: the encoding is order preserving, so this is the sign of
`a - b`. -/
def cmpDatum (a b : Datum) : Int :=
  if a < b then -1 else if b < a then 1 else 0

/-- The operator check of `qvalueInfo.assertStartOp`: a start (lower) bound
must carry `GE` or `GT`; anything else panics. -/
def qvalueInfo.assertStartOp (q : qvalueInfo) : Bool :=
  q.op = .ge ∨ q.op = .gt

/-- The operator check of `qvalueInfo.assertEndOp`: an end (upper) bound must
carry `LE` or `LT`; anything else panics. -/
def qvalueInfo.assertEndOp (q : qvalueInfo) : Bool :=
  q.op = .le ∨ q.op = .lt

/-- `qvalueInfo.intersect` after the operator assertion has passed: intersect
a new candidate constraint `n` into `q`.  `start = true` intersects
greater-than style bounds.  If `q` is empty adopt `n`; otherwise keep the
tighter value (larger for a start, smaller for an end), and on equal values
prefer a strict operator.  (The source compares via encoded keys; `cmpDatum`
is that comparison.  A candidate with a `nil` datum never occurs in the
source; here it leaves `q` unchanged.) -/
def qvalueInfo.intersect (q n : qvalueInfo) (start : Bool) : qvalueInfo :=
  match q.datum, n.datum with
  | none, _ => n
  | some dq, some dn =>
    let cmp : Int := if start then 1 else -1
    if cmpDatum dn dq = cmp then n
    else if cmpDatum dn dq = 0 then
      if n.op = .gt ∨ n.op = .lt then { q with op := n.op } else q
    else q
  | some _, none => q

/-- `qvalueInfo.union` after the operator assertion has passed: union a new
candidate constraint `n` into `q` (used for OR merging).  Keep the wider value
(smaller for a start, larger for an end), and on equal values prefer an
inclusive operator. -/
def qvalueInfo.union (q n : qvalueInfo) (start : Bool) : qvalueInfo :=
  match q.datum, n.datum with
  | none, _ => n
  | some dq, some dn =>
    let cmp : Int := if start then -1 else 1
    if cmpDatum dn dq = cmp then n
    else if cmpDatum dn dq = 0 then
      if n.op = .ge ∨ n.op = .le then { q with op := n.op } else q
    else q
  | some _, none => q

/-- The full `qvalueInfo.intersect` including the leading
`assertStartOp`/`assertEndOp` call: `none` models the fatal `panic`. -/
def qvalueInfo.intersectChecked (q n : qvalueInfo) (start : Bool) :
    Option qvalueInfo :=
  if start then
    if n.assertStartOp then some (q.intersect n start) else none
  else
    if n.assertEndOp then some (q.intersect n start) else none

/-- The full `qvalueInfo.union` including the leading assertion call:
`none` models the fatal `panic`. -/
def qvalueInfo.unionChecked (q n : qvalueInfo) (start : Bool) :
    Option qvalueInfo :=
  if start then
    if n.assertStartOp then some (q.union n start) else none
  else
    if n.assertEndOp then some (q.union n start) else none

/-- `qvalueRange`: the range of values a qvalue may have, as a start and an
end constraint. -/
structure qvalueRange where
  start : qvalueInfo
  end_ : qvalueInfo
deriving DecidableEq, Repr

/-- The zero `qvalueRange` allocated by `getRange` (`&qvalueRange{}`). -/
def emptyRange : qvalueRange := ⟨⟨none, .eq⟩, ⟨none, .eq⟩⟩

/-- `qvalueRangeMap`: map from column id to its value range.  Modelled as a
function into `Option`; absent columns map to `none`. -/
def qvalueRangeMap := ColumnID → Option qvalueRange

/-- The freshly made empty map (`make(qvalueRangeMap)`). -/
def emptyRangeMap : qvalueRangeMap := fun _ => none

/-- Filter expressions, the closed set of parser node variants the analyzer
dispatches on.  `qval` is a column reference (`*qvalue`), `constE` is a
constant sub-expression carrying the result of evaluating it (`none` models
`parser.EvalExpr` failing, or the evaluated datum being incompatible with the
column type in `convertDatum` — both lead to the identical silent skip).
`other` stands for any other node variant (it may reference columns, so
`isConst` is false on it). -/
inductive Expr where
  | qval (col : ColumnID)
  | constE (val : Option Datum)
  | not (e : Expr)
  | or (l r : Expr)
  | and (l r : Expr)
  | paren (e : Expr)
  | cmp (op : COp) (l r : Expr)
  | rangeCond (neg : Bool) (l f t : Expr)
  | other (tag : Nat)
deriving DecidableEq, Repr

/-- `isConst`: true iff the expression contains no column reference
(`DReference`), found by a full traversal. -/
def isConst : Expr → Bool
  | .qval _ => false
  | .constE _ => true
  | .not e => isConst e
  | .or l r => isConst l && isConst r
  | .and l r => isConst l && isConst r
  | .paren e => isConst e
  | .cmp _ l r => isConst l && isConst r
  | .rangeCond _ l f t => isConst l && isConst f && isConst t
  | .other _ => false

/-- Modelled from the spec: the constant-expression evaluator
`parser.EvalExpr` (`evaluate(expr) → (value, error)`), an external
collaborator.  A constant leaf evaluates to its datum, parentheses are
transparent, and everything else fails to evaluate (`none`); the
type-compatibility check `convertDatum` is folded into the `none` case of
`constE` (both failures produce the identical silent skip in the caller). -/
def evalExpr : Expr → Option Datum
  | .constE v => v
  | .paren e => evalExpr e
  | _ => none

/-- Operator inversion used when the constant is on the left
(`constant <op> qval`). -/
def invertOp : COp → COp
  | .lt => .gt
  | .le => .ge
  | .gt => .lt
  | .ge => .le
  | o => o

/-- The body of `analyzeComparisonExpr` after a qvalue side, a constant side
and a datum have been identified: `getRange` followed by the start and end
restriction switches (one per side in the source; merged into one case split
here — `EQ` falls through into both sides, contributing a `GE` start and an
`LE` end; `GE`/`GT` contribute only a start; `LE`/`LT` only an end; other
operators touch neither side). -/
def qvalueRangeMap.applyBounds (m : qvalueRangeMap) (col : ColumnID)
    (op : COp) (d : Datum) : qvalueRangeMap :=
  let r0 := (m col).getD emptyRange
  let r2 :=
    match op with
    | .eq =>
      { start := r0.start.intersect ⟨some d, .ge⟩ true
        end_ := r0.end_.intersect ⟨some d, .le⟩ false }
    | .ge => { r0 with start := r0.start.intersect ⟨some d, .ge⟩ true }
    | .gt => { r0 with start := r0.start.intersect ⟨some d, .gt⟩ true }
    | .le => { r0 with end_ := r0.end_.intersect ⟨some d, .le⟩ false }
    | .lt => { r0 with end_ := r0.end_.intersect ⟨some d, .lt⟩ false }
    | _ => r0
  fun id => if id = col then some r2 else m id

/-- The Go type assertion `expr.(*qvalue)`: the column id when the node is
exactly a column reference. -/
def asQval : Expr → Option ColumnID
  | .qval col => some col
  | _ => none

/-- `analyzeComparisonExpr`: restrict the range map using one comparison node
`l <op> r`.  Operators outside {EQ, LT, LE, GT, GE} are ignored.  The left
side must be exactly a `*qvalue` (otherwise the right side is tried, with the
operator inverted); the other side must be constant and must evaluate. -/
def qvalueRangeMap.analyzeComparisonExpr (m : qvalueRangeMap) (op : COp)
    (l r : Expr) : qvalueRangeMap :=
  if op = .eq ∨ op = .lt ∨ op = .le ∨ op = .gt ∨ op = .ge then
    match asQval l with
    | some col =>
      if isConst r then
        match evalExpr r with
        | some d => m.applyBounds col op d
        | none => m
      else m
    | none =>
      match asQval r with
      | some col =>
        if isConst l then
          match evalExpr l with
          | some d => m.applyBounds col (invertOp op) d
          | none => m
        else m
      | none => m
  else m

/-- The OR merge inlined in the `*parser.OrExpr` case of `analyzeExpr`:
combine the separately analyzed `left` and `right` maps into `m`.  For each
column of `left` also present in `right`, union the two starts (when both are
present) and the two ends (when both are present); store the merged range iff
it constrains at least one side, otherwise leave `m` unchanged at that
column. -/
def orMerge (m left right : qvalueRangeMap) : qvalueRangeMap := fun id =>
  match left id, right id with
  | some lRange, some rRange =>
    let rStart : qvalueInfo :=
      if lRange.start.datum ≠ none ∧ rRange.start.datum ≠ none then
        lRange.start.union rRange.start true
      else ⟨none, .eq⟩
    let rEnd : qvalueInfo :=
      if lRange.end_.datum ≠ none ∧ rRange.end_.datum ≠ none then
        lRange.end_.union rRange.end_ false
      else ⟨none, .eq⟩
    if rStart.datum ≠ none ∨ rEnd.datum ≠ none then some ⟨rStart, rEnd⟩
    else m id
  | _, _ => m id

/-- `analyzeExpr`: walk the filter and populate the range map.  `NOT` derives
nothing; `OR` analyzes both sides into fresh maps and merges; `AND` analyzes
both sides into the same map; `BETWEEN` is rewritten (`a BETWEEN b AND c` →
`a >= b AND a <= c`, negated → `a < b OR a > c`, here with the rewritten
comparison nodes analyzed directly); all other nodes contribute nothing. -/
def qvalueRangeMap.analyzeExpr (m : qvalueRangeMap) : Expr → qvalueRangeMap
  | .not _ => m
  | .or l r => orMerge m (emptyRangeMap.analyzeExpr l) (emptyRangeMap.analyzeExpr r)
  | .and l r => (m.analyzeExpr l).analyzeExpr r
  | .paren e => m.analyzeExpr e
  | .cmp op l r => m.analyzeComparisonExpr op l r
  | .rangeCond true l f t =>
    orMerge m (emptyRangeMap.analyzeComparisonExpr .lt l f)
      (emptyRangeMap.analyzeComparisonExpr .gt l t)
  | .rangeCond false l f t =>
    (m.analyzeComparisonExpr .ge l f).analyzeComparisonExpr .le l t
  | _ => m

/-! ### Keys

The key machinery (`proto.Key`, `encodeTableKey`, `MakeIndexKeyPrefix`,
`Key.Next`, `Key.PrefixEnd`) lives outside this file in the source; it is
modelled from the spec here. -/

/-- Modelled from the spec: a byte key (`proto.Key`), compared
lexicographically by `bytes.Compare`.  Bytes are drawn from the unbounded
alphabet `Nat`. -/
abbrev Key := List Nat

/-- Modelled from the spec: `Key.Next`, the smallest key strictly greater
than `k` (append the minimal byte). -/
def keyNext (k : Key) : Key := k ++ [0]

/-- Modelled from the spec: `Key.PrefixEnd`, the prefix-successor — a key
greater than every key having `k` as a prefix.  With unbounded bytes this
increments the final byte. -/
def prefixEnd : Key → Key
  | [] => []
  | [b] => [b + 1]
  | b :: rest => b :: prefixEnd rest

/-- Modelled from the spec: the order-preserving encoder `encodeTableKey`,
appending the encoding of one datum to a key.  One datum becomes one byte,
which is order-preserving and prefix-free. -/
def encodeTableKey (k : Key) (d : Datum) : Key := k ++ [d]

/-- Modelled from the spec: `MakeIndexKeyPrefix`, the key prefix of an index
(table identifier then index identifier). -/
def makeIndexKeyPref (tableID indexID : Nat) : Key := [tableID, indexID]

/-- Strict lexicographic comparison of keys (`bytes.Compare(a, b) < 0`). -/
def keyLt : Key → Key → Bool
  | [], [] => false
  | [], _ :: _ => true
  | _ :: _, [] => false
  | a :: as, b :: bs => if a < b then true else if a = b then keyLt as bs else false

/-- Non-strict lexicographic comparison (`bytes.Compare(a, b) <= 0`). -/
def keyLe (a b : Key) : Bool := !keyLt b a

/-! ### Table and index metadata -/

/-- The part of `IndexDescriptor` this code consumes: identifier, uniqueness
flag, and the ordered key column ids. -/
structure IndexDescriptor where
  id : Nat
  unique : Bool
  columnIDs : List ColumnID
deriving DecidableEq, Repr

instance : Inhabited IndexDescriptor := ⟨⟨0, false, []⟩⟩

/-- The part of `TableDescriptor` this code consumes: identifier, the table
columns (by id; only their number matters here), the primary index and the
secondary indexes in declared order. -/
structure TableDescriptor where
  id : Nat
  columns : List ColumnID
  primaryIndex : IndexDescriptor
  indexes : List IndexDescriptor
deriving DecidableEq, Repr

instance : Inhabited TableDescriptor := ⟨⟨0, [], default, []⟩⟩

/-- `indexInfo`: one candidate index under evaluation.  `isPrimary` models
the pointer identity test `v.index == &v.desc.PrimaryIndex` used by the
source (the primary candidate is the one built from `&desc.PrimaryIndex`;
candidates built from entries of `desc.Indexes` are never that pointer). -/
structure indexInfo where
  desc : TableDescriptor
  index : IndexDescriptor
  isPrimary : Bool
  start : List qvalueInfo
  end_ : List qvalueInfo
  cost : ℚ
deriving DecidableEq, Repr

instance : Inhabited indexInfo := ⟨⟨default, default, false, [], [], 0⟩⟩

/-- A fresh `&indexInfo{desc: ..., index: ...}` as built by `selectIndex`. -/
def mkIndexInfo (desc : TableDescriptor) (index : IndexDescriptor)
    (isPrimary : Bool) : indexInfo :=
  ⟨desc, index, isPrimary, [], [], 0⟩

/-- `isCoveringIndex`: the primary index always covers; a secondary index
covers iff every referenced column is among its key columns or — only for
non-unique indexes — among the primary key columns. -/
def indexInfo.isCoveringIndex (v : indexInfo) (qvals : List ColumnID) : Bool :=
  v.isPrimary ||
    qvals.all fun colID =>
      v.index.columnIDs.contains colID ||
        (!v.index.unique && v.desc.primaryIndex.columnIDs.contains colID)

/-- `makeStartInfo`: walk the index columns in order; while the column has a
range map entry, append that entry's start info, and continue past it only
when its operator is `GE`. -/
def makeStartInfo (m : qvalueRangeMap) : List ColumnID → List qvalueInfo
  | [] => []
  | colID :: rest =>
    match m colID with
    | some r => r.start :: (if r.start.op = .ge then makeStartInfo m rest else [])
    | none => []

/-- `makeEndInfo`: symmetric to `makeStartInfo` with end infos, continuing
only past an `LE` operator. -/
def makeEndInfo (m : qvalueRangeMap) : List ColumnID → List qvalueInfo
  | [] => []
  | colID :: rest =>
    match m colID with
    | some r => r.end_ :: (if r.end_.op = .le then makeEndInfo m rest else [])
    | none => []

/-- The value of `math.MaxFloat64`, as an exact rational. -/
def maxFloat64 : ℚ := (2 ^ 53 - 1) * 2 ^ 971

/-- `analyzeRanges`: cost a candidate.  A non-covering candidate gets
`math.MaxFloat64` and no bound extraction.  Otherwise the base cost is keys
per row (`1 + #columns - #primary key columns` for the primary index, the
index width for a secondary); it is multiplied by `1000` when no bound was
extracted at all, else by `(width + width) / (#start + #end)`. -/
def indexInfo.analyzeRanges (v : indexInfo) (qvals : List ColumnID)
    (m : qvalueRangeMap) : indexInfo :=
  if !(v.isCoveringIndex qvals) then { v with cost := maxFloat64 }
  else
    let start := makeStartInfo m v.index.columnIDs
    let end_ := makeEndInfo m v.index.columnIDs
    let cost : ℚ :=
      if v.isPrimary then
        1 + (v.desc.columns.length : ℚ) - (v.desc.primaryIndex.columnIDs.length : ℚ)
      else (v.index.columnIDs.length : ℚ)
    let cost : ℚ :=
      if start.length = 0 ∧ end_.length = 0 then cost * 1000
      else
        cost * (((v.index.columnIDs.length : ℚ) + (v.index.columnIDs.length : ℚ)) /
          ((start.length : ℚ) + (end_.length : ℚ)))
    { v with start := start, end_ := end_, cost := cost }

/-- The loop of `makeStartKey`: encode each start datum in order; stop at a
missing datum; after encoding a `GT` bound, advance to the immediate
successor and stop. -/
def makeStartKeyLoop : Key → List qvalueInfo → Key
  | key, [] => key
  | key, e :: rest =>
    match e.datum with
    | none => key
    | some d =>
      let key := encodeTableKey key d
      if e.op = .gt then keyNext key else makeStartKeyLoop key rest

/-- `makeStartKey`: index key prefix followed by the encoded start bounds. -/
def indexInfo.makeStartKey (v : indexInfo) : Key :=
  makeStartKeyLoop (makeIndexKeyPref v.desc.id v.index.id) v.start

/-- The loop of `makeEndKey`: encode each end datum in order; stop at a
missing datum; stop right after encoding an `LT` bound.  The boolean reports
whether the loop ended on an `LT` bound. -/
def makeEndKeyLoop : Key → List qvalueInfo → Key × Bool
  | key, [] => (key, false)
  | key, e :: rest =>
    match e.datum with
    | none => (key, false)
    | some d =>
      let key := encodeTableKey key d
      if e.op = .lt then (key, true) else makeEndKeyLoop key rest

/-- The tail of `makeEndKey` after the loop: unless the loop ended on a
strict (`LT`) bound, take the prefix-successor so the interval stays
half-open. -/
def endKeyFrom (key : Key) (infos : List qvalueInfo) : Key :=
  let r := makeEndKeyLoop key infos
  if r.2 then r.1 else prefixEnd r.1

/-- `makeEndKey`: index key prefix followed by the encoded end bounds; unless
the last encoded bound was strict (`LT`), take the prefix-successor so the
interval stays half-open. -/
def indexInfo.makeEndKey (v : indexInfo) : Key :=
  endKeyFrom (makeIndexKeyPref v.desc.id v.index.id) v.end_

/-! ### Go 1.4 `sort.Sort`

`selectIndex` ranks candidates with `sort.Sort(indexInfoByCost(candidates))`.
`sort.Sort` of the contemporary Go standard library (Go 1.4/1.5) is an
introsort: quicksort with median-of-three pivoting, falling back to insertion
sort on ranges of at most 7 elements and to heapsort past a depth limit.  It
is embedded here over lists with positional access; out-of-range accesses
(which the algorithm never performs) read a default element / skip the swap,
keeping the functions total. -/

/-- Positional read, `data[i]`. -/
def lget [Inhabited α] (l : List α) (i : Nat) : α := l.getD i default

/-- `data.Swap(i, j)` (identity when an index is out of range, which the
sorting code never does). -/
def lswap [Inhabited α] (l : List α) (i j : Nat) : List α :=
  if i < l.length ∧ j < l.length then (l.set i (lget l j)).set j (lget l i)
  else l

/-- One step of `insertionSort`: the inner loop bubbles the new element `x`
left over the strictly greater elements of the (always sorted) prefix, which
places it directly before the first element strictly greater than it. -/
def bubbleInsert (less : α → α → Bool) : List α → α → List α
  | [], x => [x]
  | y :: ys, x => if less x y then x :: y :: ys else y :: bubbleInsert less ys x

/-- `insertionSort` on a whole list: successively bubble each element into
the sorted prefix. -/
def goInsertionSort (less : α → α → Bool) (l : List α) : List α :=
  l.foldl (fun acc x => bubbleInsert less acc x) []

/-- `insertionSort(data, a, b)`: sort the range `[a, b)` in place, leaving
the rest untouched. -/
def insertionSortRange [Inhabited α] (less : α → α → Bool) (l : List α)
    (a b : Nat) : List α :=
  l.take a ++ goInsertionSort less ((l.take b).drop a) ++ l.drop b

/-- `medianOfThree(data, a, b, c)`: moves the median of the three values into
`data[a]` by a three-element bubble sort with `m0, m1, m2 := b, a, c`. -/
def medianOfThree [Inhabited α] (less : α → α → Bool) (l : List α)
    (a b c : Nat) : List α :=
  let m0 := b
  let m1 := a
  let m2 := c
  let l := if less (lget l m1) (lget l m0) then lswap l m1 m0 else l
  let l := if less (lget l m2) (lget l m1) then lswap l m2 m1 else l
  if less (lget l m1) (lget l m0) then lswap l m1 m0 else l

/-- `swapRange(data, a, b, n)`: swap `data[a+i]` with `data[b+i]` for
`i = 0 .. n-1`. -/
def swapRange [Inhabited α] (l : List α) (a b : Nat) : Nat → List α
  | 0 => l
  | n + 1 => swapRange (lswap l a b) (a + 1) (b + 1) n

/-- First inner loop of `doPivot`: advance `b` over elements `< pivot`,
moving elements `= pivot` to the left block at `a`. -/
def doPivotLoop1 [Inhabited α] (less : α → α → Bool) (pivot : Nat)
    (l : List α) (a b c : Nat) : List α × Nat × Nat :=
  if _h : b < c then
    if less (lget l b) (lget l pivot) then doPivotLoop1 less pivot l a (b + 1) c
    else if !less (lget l pivot) (lget l b) then
      doPivotLoop1 less pivot (lswap l a b) (a + 1) (b + 1) c
    else (l, a, b)
  else (l, a, b)
termination_by c - b
decreasing_by all_goals omega

/-- Second inner loop of `doPivot`: retreat `c` over elements `> pivot`,
moving elements `= pivot` to the right block at `d`. -/
def doPivotLoop2 [Inhabited α] (less : α → α → Bool) (pivot : Nat)
    (l : List α) (b c d : Nat) : List α × Nat × Nat :=
  if _h : b < c then
    if less (lget l pivot) (lget l (c - 1)) then doPivotLoop2 less pivot l b (c - 1) d
    else if !less (lget l (c - 1)) (lget l pivot) then
      doPivotLoop2 less pivot (lswap l (c - 1) (d - 1)) b (c - 1) (d - 1)
    else (l, c, d)
  else (l, c, d)
termination_by c
decreasing_by all_goals omega

/-- Outer partition loop of `doPivot`.  The fuel is an upper bound on the
iteration count (each iteration shrinks `c - b` by two); it never runs out on
the in-range calls the sort performs. -/
def doPivotOuter [Inhabited α] (less : α → α → Bool) (pivot : Nat)
    (fuel : Nat) (l : List α) (a b c d : Nat) :
    List α × Nat × Nat × Nat × Nat :=
  match fuel with
  | 0 => (l, a, b, c, d)
  | fuel + 1 =>
    let r1 := doPivotLoop1 less pivot l a b c
    let l := r1.1
    let a := r1.2.1
    let b := r1.2.2
    let r2 := doPivotLoop2 less pivot l b c d
    let l := r2.1
    let c := r2.2.1
    let d := r2.2.2
    if b ≥ c then (l, a, b, c, d)
    else doPivotOuter less pivot fuel (lswap l b (c - 1)) a (b + 1) (c - 1) d

/-- `doPivot(data, lo, hi)`: median-of-three pivot selection (with Tukey
ninther over 40 elements), three-way partition, and relocation of the
equal-to-pivot blocks to the middle; returns the new list and `(midlo,
midhi)`. -/
def doPivot [Inhabited α] (less : α → α → Bool) (l : List α) (lo hi : Nat) :
    List α × Nat × Nat :=
  let m := lo + (hi - lo) / 2
  let l :=
    if hi - lo > 40 then
      let s := (hi - lo) / 8
      let l := medianOfThree less l lo (lo + s) (lo + 2 * s)
      let l := medianOfThree less l m (m - s) (m + s)
      medianOfThree less l (hi - 1) (hi - 1 - s) (hi - 1 - 2 * s)
    else l
  let l := medianOfThree less l lo m (hi - 1)
  let pivot := lo
  let r := doPivotOuter less pivot (hi + 1) l (lo + 1) (lo + 1) hi hi
  let l := r.1
  let a := r.2.1
  let b := r.2.2.1
  let c := r.2.2.2.1
  let d := r.2.2.2.2
  let n := min (b - a) (a - lo)
  let l := swapRange l lo (b - n) n
  let n := min (hi - d) (d - c)
  let l := swapRange l c (hi - n) n
  (l, lo + b - a, hi - (d - c))

/-- `siftDown(data, root, hi, first)` of heapsort. -/
def siftDown [Inhabited α] (less : α → α → Bool) (l : List α)
    (root hi first : Nat) : List α :=
  let child := 2 * root + 1
  if _h : child ≥ hi then l
  else
    let child :=
      if child + 1 < hi ∧ less (lget l (first + child)) (lget l (first + child + 1))
      then child + 1 else child
    if !less (lget l (first + root)) (lget l (first + child)) then l
    else siftDown less (lswap l (first + root) (first + child)) child hi first
termination_by hi - root
decreasing_by split <;> omega

/-- The heap-building loop of `heapSort`: `siftDown` for
`i = (hi-1)/2 .. 0`; the counter is `i + 1`. -/
def heapBuild [Inhabited α] (less : α → α → Bool) (hi first : Nat) :
    List α → Nat → List α
  | l, 0 => l
  | l, k + 1 => heapBuild less hi first (siftDown less l k hi first) k

/-- The pop loop of `heapSort`: for `i = hi-1 .. 0`, swap the maximum to
position `first + i` and restore the heap; the counter is `i + 1`. -/
def heapPop [Inhabited α] (less : α → α → Bool) (first : Nat) :
    List α → Nat → List α
  | l, 0 => l
  | l, k + 1 => heapPop less first (siftDown less (lswap l first (first + k)) 0 k first) k

/-- `heapSort(data, a, b)`. -/
def heapSortRange [Inhabited α] (less : α → α → Bool) (l : List α)
    (a b : Nat) : List α :=
  let first := a
  let hi := b - a
  let l := heapBuild less hi first l ((hi - 1) / 2 + 1)
  heapPop less first l hi

/-- `quickSort(data, a, b, maxDepth)` of Go 1.4: ranges over 7 elements are
partitioned (or heapsorted once the depth budget is exhausted), recursing on
the smaller half and looping on the larger; ranges of 2..7 elements get
insertion sort. -/
def quickSortRange [Inhabited α] (less : α → α → Bool) (l : List α)
    (a b maxDepth : Nat) : List α :=
  if b - a > 7 then
    if h : maxDepth = 0 then heapSortRange less l a b
    else
      let p := doPivot less l a b
      let mlo := p.2.1
      let mhi := p.2.2
      if mlo - a < b - mhi then
        quickSortRange less (quickSortRange less p.1 a mlo (maxDepth - 1)) mhi b
          (maxDepth - 1)
      else
        quickSortRange less (quickSortRange less p.1 mhi b (maxDepth - 1)) a mlo
          (maxDepth - 1)
  else if b - a > 1 then insertionSortRange less l a b
  else l
termination_by maxDepth
decreasing_by all_goals omega

/-- The `maxDepth` loop of `sort.Sort`: the number of halvings of `n` down
to 0. -/
def depthLoop (n : Nat) : Nat :=
  if _h : n = 0 then 0 else 1 + depthLoop (n / 2)
termination_by n
decreasing_by exact Nat.div_lt_self (by omega) (by omega)

/-- `sort.Sort`: quicksort over the whole list with depth budget
`2 * ceil(lg(n+1))`. -/
def goSort [Inhabited α] (less : α → α → Bool) (l : List α) : List α :=
  quickSortRange less l 0 l.length (2 * depthLoop l.length)

/-- `indexInfoByCost.Less`: compare candidates by cost. -/
def indexInfoLess (x y : indexInfo) : Bool := x.cost < y.cost

/-! ### The selector -/

/-- The part of `scanNode` that `selectIndex` consumes and produces.  When
`isSecondaryIndex` is set, `index` is the explicitly requested secondary
index (non-nil in the source, and never the primary-index pointer). -/
structure scanNode where
  desc : Option TableDescriptor
  filter : Option Expr
  index : Option IndexDescriptor
  isSecondaryIndex : Bool
  qvals : List ColumnID
  startKey : Key
  endKey : Key
deriving DecidableEq, Repr

/-- `selectIndex`: with no table or no filter the scan is returned as is.
Otherwise analyze the filter into a range map, build the candidate list (the
explicitly requested index alone, or the primary index followed by the
declared secondary indexes), cost every candidate, sort by cost with Go's
`sort.Sort`, and commit the first candidate's index identity and start/end
keys into the scan. -/
def selectIndex (s : scanNode) : scanNode :=
  match s.desc, s.filter with
  | some desc, some filter =>
    let rangeInfo := emptyRangeMap.analyzeExpr filter
    let candidates : List indexInfo :=
      if s.isSecondaryIndex then
        [mkIndexInfo desc (s.index.getD default) false]
      else
        mkIndexInfo desc desc.primaryIndex true ::
          desc.indexes.map fun idx => mkIndexInfo desc idx false
    let candidates := candidates.map fun c => c.analyzeRanges s.qvals rangeInfo
    match goSort indexInfoLess candidates with
    | [] => s
    | best :: _ =>
      { s with
        index := some best.index
        isSecondaryIndex := !best.isPrimary
        startKey := best.makeStartKey
        endKey := best.makeEndKey }
  | _, _ => s

/-! ### Semantics

Denotations used to state the claims: which rows satisfy a filter, which
values a bound admits, and which key a row occupies in an index.  A row is a
valuation of the columns.  Expression fragments the analyzer cannot interpret
(opaque nodes, comparisons it derives nothing from) are given their truth
value by an oracle `ω`, so a soundness statement quantified over all oracles
covers every possible meaning of those fragments. -/

/-- A row: the value of each column. -/
abbrev Row := ColumnID → Datum

/-- An oracle fixing the truth value, per row, of expression fragments whose
meaning the analyzer does not interpret. -/
abbrev Oracle := Expr → Row → Bool

/-- The value of one side of a comparison on a row: a column reference reads
the row, a constant evaluates to its datum, parentheses are transparent,
anything else has no value. -/
def evalSide (ρ : Row) : Expr → Option Datum
  | .qval c => some (ρ c)
  | .constE v => v
  | .paren e => evalSide ρ e
  | _ => none

/-- The truth of `a <op> b` on two datums, when the operator has an
arithmetic meaning. -/
def cmpHolds (op : COp) (a b : Datum) : Option Bool :=
  match op with
  | .eq => some (a = b)
  | .lt => some (a < b)
  | .le => some (a ≤ b)
  | .gt => some (b < a)
  | .ge => some (b ≤ a)
  | .ne => some (a ≠ b)
  | .otherOp => none

/-- The truth of a comparison node on a row; the oracle decides it when a
side has no value or the operator no arithmetic meaning. -/
def satCmp (ω : Oracle) (ρ : Row) (op : COp) (l r : Expr) : Bool :=
  match evalSide ρ l, evalSide ρ r with
  | some a, some b =>
    match cmpHolds op a b with
    | some v => v
    | none => ω (.cmp op l r) ρ
  | _, _ => ω (.cmp op l r) ρ

/-- Whether a row satisfies a filter expression, under oracle `ω` for the
fragments without interpreted meaning.  `BETWEEN` means its standard
conjunction (`NOT BETWEEN` the standard disjunction), matching the rewriting
performed by the analyzer. -/
def Expr.sat (ω : Oracle) (ρ : Row) : Expr → Bool
  | .qval c => ω (.qval c) ρ
  | .constE v => ω (.constE v) ρ
  | .not e => !(e.sat ω ρ)
  | .or l r => l.sat ω ρ || r.sat ω ρ
  | .and l r => l.sat ω ρ && r.sat ω ρ
  | .paren e => e.sat ω ρ
  | .cmp op l r => satCmp ω ρ op l r
  | .rangeCond true l f t => satCmp ω ρ .lt l f || satCmp ω ρ .gt l t
  | .rangeCond false l f t => satCmp ω ρ .ge l f && satCmp ω ρ .le l t
  | .other tag => ω (.other tag) ρ

/-- The set of values a start (lower) bound admits: everything if absent,
`d < x` for a strict `GT` bound, `d ≤ x` otherwise. -/
def qvalueInfo.startHolds (q : qvalueInfo) (x : Datum) : Bool :=
  match q.datum with
  | none => true
  | some d => if q.op = .gt then d < x else d ≤ x

/-- The set of values an end (upper) bound admits: everything if absent,
`x < d` for a strict `LT` bound, `x ≤ d` otherwise. -/
def qvalueInfo.endHolds (q : qvalueInfo) (x : Datum) : Bool :=
  match q.datum with
  | none => true
  | some d => if q.op = .lt then x < d else x ≤ d

/-- A value lies within a `qvalueRange` iff both its bounds admit it. -/
def rangeHolds (r : qvalueRange) (x : Datum) : Bool :=
  r.start.startHolds x && r.end_.endHolds x

/-- A row is admitted by a range map iff every recorded column range admits
the row's value for that column. -/
def mapHolds (m : qvalueRangeMap) (ρ : Row) : Prop :=
  ∀ c r, m c = some r → rangeHolds r (ρ c) = true

/-- The operator well-formedness invariant of the range map: a present start
datum carries `GE` or `GT`, a present end datum carries `LE` or `LT` (Go's
zero operator `EQ` occurs only together with a `nil` datum). -/
def mapWF (m : qvalueRangeMap) : Prop :=
  ∀ c r, m c = some r →
    (r.start.datum ≠ none → r.start.op = .ge ∨ r.start.op = .gt) ∧
    (r.end_.datum ≠ none → r.end_.op = .le ∨ r.end_.op = .lt)

/-- The key of a row in an index: the index key prefix followed by the
encodings of the row's values for the index columns in order.  (Physical row
keys may continue with a suffix — the primary key columns of a non-unique
secondary index, per-column family keys of the primary index — which the
soundness statements quantify over.) -/
def rowKey (desc : TableDescriptor) (idx : IndexDescriptor) (ρ : Row) : Key :=
  makeIndexKeyPref desc.id idx.id ++ idx.columnIDs.map ρ

/-! ### Spec-side definitions

Vocabulary used only to state claims (not translated from the source). -/

/-- Spec-side: the number of index columns the start-list walk consumes —
columns are consumed while present in the map with an inclusive (`GE`) start
operator, plus the one column (present, non-`GE`) the walk stops on. -/
def startStop (m : qvalueRangeMap) : List ColumnID → Nat
  | [] => 0
  | c :: rest =>
    match m c with
    | none => 0
    | some r => 1 + (if r.start.op = .ge then startStop m rest else 0)

/-- Spec-side: the analogue of `startStop` for the end-list walk (`LE`). -/
def endStop (m : qvalueRangeMap) : List ColumnID → Nat
  | [] => 0
  | c :: rest =>
    match m c with
    | none => 0
    | some r => 1 + (if r.end_.op = .le then endStop m rest else 0)

/-- Spec-side ("the merged lower bound is the union of the two lower
bounds"): the union of two optional bounds — absent unless both are
present. -/
def boundUnionOpt (a b : qvalueInfo) (start : Bool) : qvalueInfo :=
  if a.datum ≠ none ∧ b.datum ≠ none then a.union b start else ⟨none, .eq⟩

/-! ### Concrete scenarios

Closed instances used by the witnesses and counterexamples. -/

/-- A table with a single column `a` (id 0) forming the primary key. -/
def descOne : TableDescriptor := ⟨10, [0], ⟨1, true, [0]⟩, []⟩

/-- The filter `a > 10 AND a < 20`. -/
def filterRange : Expr :=
  .and (.cmp .gt (.qval 0) (.constE (some 10)))
    (.cmp .lt (.qval 0) (.constE (some 20)))

/-- A scan of `descOne` with filter `a > 10 AND a < 20`. -/
def scanRange : scanNode := ⟨some descOne, some filterRange, none, false, [0], [], []⟩

/-- The filter `a < 20` alone. -/
def filterLt20 : Expr := .cmp .lt (.qval 0) (.constE (some 20))

/-- A non-unique secondary index with identifier `i` on column `b` (id 1). -/
def idxOnB (i : Nat) : IndexDescriptor := ⟨i, false, [1]⟩

/-- A table with columns `a` (id 0, primary key) and `b` (id 1), carrying
seven secondary indexes (ids 2..8) all on `b`. -/
def descSeven : TableDescriptor :=
  ⟨20, [0, 1], ⟨1, true, [0]⟩,
    [idxOnB 2, idxOnB 3, idxOnB 4, idxOnB 5, idxOnB 6, idxOnB 7, idxOnB 8]⟩

/-- The filter `b = 5`. -/
def filterEqB : Expr := .cmp .eq (.qval 1) (.constE (some 5))

/-- A scan of `descSeven` with filter `b = 5`, referencing only `b`: the
eight candidates evaluate to one expensive primary and seven equal-cost
secondaries. -/
def scanSeven : scanNode := ⟨some descSeven, some filterEqB, none, false, [1], [], []⟩

/-- The evaluated candidate for the secondary index `idxOnB i` under the
filter `b = 5`: one `GE`/`LE` bound pair on `b` and cost
`1 * ((1 + 1) / (1 + 1)) = 1`. -/
def secInfoSeven (i : Nat) : indexInfo :=
  ⟨descSeven, idxOnB i, false, [⟨some 5, .ge⟩], [⟨some 5, .le⟩], 1⟩

/-- The evaluated candidate for the primary index of `descSeven` under the
filter `b = 5`: no bounds on `a`, cost `(1 + 2 - 1) * 1000 = 2000`. -/
def primInfoSeven : indexInfo :=
  ⟨descSeven, descSeven.primaryIndex, true, [], [], 2000⟩

/-- A unique secondary index on `b` that does not cover a query also
referencing `a`. -/
def idxUniqueB : IndexDescriptor := ⟨9, true, [1]⟩

/-- A scan of `descSeven` that explicitly requests `idxUniqueB` while
referencing both columns, making the requested index non-covering. -/
def scanExplicit : scanNode :=
  ⟨some descSeven, some filterEqB, some idxUniqueB, true, [0, 1], [], []⟩

/-! ## Lemmas on key order -/

theorem keyLt_append_self (k ext : Key) : keyLt (k ++ ext) k = false := by
  induction k with
  | nil => cases ext <;> rfl
  | cons a as ih => simp [keyLt, ih]

theorem keyLe_append (k ext : Key) : keyLe k (k ++ ext) = true := by
  simp [keyLe, keyLt_append_self]

theorem keyLt_append_lt {x y : Nat} (h : x < y) (k u v : Key) :
    keyLt (k ++ x :: u) (k ++ y :: v) = true := by
  induction k with
  | nil => simp [keyLt, h]
  | cons a as ih => simp [keyLt, ih]

theorem keyLt_asymm : ∀ (a b : Key), keyLt a b = true → keyLt b a = false
  | [], [], h => by simp [keyLt] at h
  | [], _ :: _, _ => rfl
  | _ :: _, [], h => by simp [keyLt] at h
  | a :: as, b :: bs, h => by
    simp only [keyLt] at h ⊢
    by_cases h1 : a < b
    · have h2 : ¬ b < a := by omega
      have h3 : ¬ b = a := by omega
      simp [h2, h3]
    · by_cases h2 : a = b
      · subst h2
        simp only [h1, if_neg, if_pos rfl] at h
        simp [keyLt_asymm as bs h]
      · simp [h1, h2] at h

theorem keyLe_of_keyLt {a b : Key} (h : keyLt a b = true) : keyLe a b = true := by
  simp [keyLe, keyLt_asymm a b h]

theorem prefixEnd_cons_cons (a r : Nat) (rs : Key) :
    prefixEnd (a :: r :: rs) = a :: prefixEnd (r :: rs) := rfl

theorem prefixEnd_append (u v : Key) (h : v ≠ []) :
    prefixEnd (u ++ v) = u ++ prefixEnd v := by
  induction u with
  | nil => rfl
  | cons a as ih =>
    cases hv : as ++ v with
    | nil => exact absurd (List.append_eq_nil.mp hv).2 h
    | cons r rs =>
      calc prefixEnd (a :: as ++ v) = a :: prefixEnd (as ++ v) := by
            rw [List.cons_append, hv, prefixEnd_cons_cons, ← hv]
        _ = a :: (as ++ prefixEnd v) := by rw [ih]
        _ = (a :: as) ++ prefixEnd v := rfl

theorem keyLt_cons_same (a : Nat) (u v : Key) :
    keyLt (a :: u) (a :: v) = keyLt u v := by
  simp [keyLt]

theorem keyLt_append_prefixEnd (k ext : Key) (h : k ≠ []) :
    keyLt (k ++ ext) (prefixEnd k) = true := by
  induction k with
  | nil => exact absurd rfl h
  | cons a as ih =>
    cases as with
    | nil => simp [prefixEnd, keyLt]
    | cons r rs =>
      rw [prefixEnd_cons_cons, List.cons_append, keyLt_cons_same]
      exact ih (by simp)

/-! ## Shape of the constructed keys -/

theorem makeStartKeyLoop_shape : ∀ (infos : List qvalueInfo) (k : Key),
    ∃ t, makeStartKeyLoop k infos = k ++ t
  | [], k => ⟨[], by simp [makeStartKeyLoop]⟩
  | e :: rest, k => by
    cases hd : e.datum with
    | none => exact ⟨[], by simp [makeStartKeyLoop, hd]⟩
    | some d =>
      by_cases hop : e.op = .gt
      · exact ⟨[d, 0],
          by simp [makeStartKeyLoop, hd, hop, keyNext, encodeTableKey]⟩
      · obtain ⟨t, ht⟩ := makeStartKeyLoop_shape rest (k ++ [d])
        exact ⟨d :: t,
          by simp [makeStartKeyLoop, hd, hop, encodeTableKey, ht]⟩

theorem makeEndKeyLoop_shape : ∀ (infos : List qvalueInfo) (k : Key),
    ∃ t flag, makeEndKeyLoop k infos = (k ++ t, flag)
  | [], k => ⟨[], false, by simp [makeEndKeyLoop]⟩
  | e :: rest, k => by
    cases hd : e.datum with
    | none => exact ⟨[], false, by simp [makeEndKeyLoop, hd]⟩
    | some d =>
      by_cases hop : e.op = .lt
      · exact ⟨[d], true, by simp [makeEndKeyLoop, hd, hop, encodeTableKey]⟩
      · obtain ⟨t, flag, ht⟩ := makeEndKeyLoop_shape rest (k ++ [d])
        exact ⟨d :: t, flag,
          by simp [makeEndKeyLoop, hd, hop, encodeTableKey, ht]⟩

theorem endKeyFrom_shape (infos : List qvalueInfo) (k : Key) (d : Nat) :
    (∃ w, endKeyFrom (k ++ [d]) infos = k ++ d :: w) ∨
      endKeyFrom (k ++ [d]) infos = k ++ [d + 1] := by
  obtain ⟨t, flag, ht⟩ := makeEndKeyLoop_shape infos (k ++ [d])
  cases flag with
  | true => exact .inl ⟨t, by simp [endKeyFrom, ht]⟩
  | false =>
    cases t with
    | nil =>
      refine .inr ?_
      simp only [endKeyFrom, ht, List.append_nil]
      rw [prefixEnd_append k [d] (by simp)]
      rfl
    | cons w ws =>
      refine .inl ⟨prefixEnd (w :: ws), ?_⟩
      simp only [endKeyFrom, ht, Bool.false_eq_true, if_false, List.append_assoc,
        List.cons_append, List.nil_append]
      rw [prefixEnd_append k (d :: w :: ws) (by simp), prefixEnd_cons_cons]

/-! ## Soundness of the constructed keys

If a row lies within every range the map records, then the start key built
from the map is at most the row's key (with any physical suffix appended),
and the end key is strictly greater. -/

theorem startKey_le_rowKey (m : qvalueRangeMap) (ρ : Row) (hm : mapHolds m ρ) :
    ∀ (cols : List ColumnID) (k suffix : Key),
    keyLe (makeStartKeyLoop k (makeStartInfo m cols))
      (k ++ (cols.map ρ ++ suffix)) = true := by
  intro cols
  induction cols with
  | nil =>
    intro k suffix
    simpa [makeStartInfo, makeStartKeyLoop] using keyLe_append k suffix
  | cons c rest ih =>
    intro k suffix
    cases hmc : m c with
    | none =>
      simp only [makeStartInfo, hmc, makeStartKeyLoop]
      exact keyLe_append k _
    | some r =>
      have hold : rangeHolds r (ρ c) = true := hm c r hmc
      have hstart : r.start.startHolds (ρ c) = true := by
        simp only [rangeHolds, Bool.and_eq_true] at hold
        exact hold.1
      cases hd : r.start.datum with
      | none =>
        simp only [makeStartInfo, hmc, makeStartKeyLoop, hd]
        exact keyLe_append k _
      | some d =>
        by_cases hgt : r.start.op = .gt
        · have hdx : d < ρ c := by
            simpa [qvalueInfo.startHolds, hd, hgt] using hstart
          have hloop : makeStartKeyLoop k (makeStartInfo m (c :: rest)) =
              k ++ [d, 0] := by
            simp [makeStartInfo, hmc, makeStartKeyLoop, hd, hgt, keyNext,
              encodeTableKey]
          rw [hloop]
          exact keyLe_of_keyLt (by
            simpa using keyLt_append_lt hdx k [0] (rest.map ρ ++ suffix))
        · have hdx : d ≤ ρ c := by
            simpa [qvalueInfo.startHolds, hd, hgt] using hstart
          by_cases hge : r.start.op = .ge
          · have hloop : makeStartKeyLoop k (makeStartInfo m (c :: rest)) =
                makeStartKeyLoop (k ++ [d]) (makeStartInfo m rest) := by
              simp [makeStartInfo, hmc, makeStartKeyLoop, hd, hgt, hge,
                encodeTableKey]
            rw [hloop]
            rcases Nat.eq_or_lt_of_le hdx with heq | hlt
            · subst heq
              have := ih (k ++ [ρ c]) suffix
              simpa [List.append_assoc] using this
            · obtain ⟨t, ht⟩ := makeStartKeyLoop_shape (makeStartInfo m rest) (k ++ [d])
              rw [ht]
              exact keyLe_of_keyLt (by
                simpa using keyLt_append_lt hlt k t (rest.map ρ ++ suffix))
          · have hloop : makeStartKeyLoop k (makeStartInfo m (c :: rest)) =
                k ++ [d] := by
              simp [makeStartInfo, hmc, makeStartKeyLoop, hd, hgt, hge,
                encodeTableKey]
            rw [hloop]
            rcases Nat.eq_or_lt_of_le hdx with heq | hlt
            · subst heq
              have : k ++ (ρ c :: rest.map ρ ++ suffix) =
                  (k ++ [ρ c]) ++ (rest.map ρ ++ suffix) := by
                simp [List.append_assoc]
              rw [List.map_cons, this]
              exact keyLe_append _ _
            · exact keyLe_of_keyLt (by
                simpa using keyLt_append_lt hlt k [] (rest.map ρ ++ suffix))

theorem rowKey_lt_endKey (m : qvalueRangeMap) (ρ : Row) (hm : mapHolds m ρ) :
    ∀ (cols : List ColumnID) (k suffix : Key), k ≠ [] →
    keyLt (k ++ (cols.map ρ ++ suffix))
      (endKeyFrom k (makeEndInfo m cols)) = true := by
  intro cols
  induction cols with
  | nil =>
    intro k suffix hk
    simpa [makeEndInfo, endKeyFrom, makeEndKeyLoop] using
      keyLt_append_prefixEnd k _ hk
  | cons c rest ih =>
    intro k suffix hk
    cases hmc : m c with
    | none =>
      simp only [makeEndInfo, hmc, endKeyFrom, makeEndKeyLoop]
      exact keyLt_append_prefixEnd k _ hk
    | some r =>
      have hold : rangeHolds r (ρ c) = true := hm c r hmc
      have hend : r.end_.endHolds (ρ c) = true := by
        simp only [rangeHolds, Bool.and_eq_true] at hold
        exact hold.2
      cases hd : r.end_.datum with
      | none =>
        simp only [makeEndInfo, hmc, endKeyFrom, makeEndKeyLoop, hd]
        exact keyLt_append_prefixEnd k _ hk
      | some d =>
        by_cases hlt : r.end_.op = .lt
        · have hdx : ρ c < d := by
            simpa [qvalueInfo.endHolds, hd, hlt] using hend
          have hloop : endKeyFrom k (makeEndInfo m (c :: rest)) = k ++ [d] := by
            simp [makeEndInfo, hmc, endKeyFrom, makeEndKeyLoop, hd, hlt,
              encodeTableKey]
          rw [hloop]
          simpa using keyLt_append_lt hdx k (rest.map ρ ++ suffix) []
        · have hdx : ρ c ≤ d := by
            simpa [qvalueInfo.endHolds, hd, hlt] using hend
          have hloop : endKeyFrom k (makeEndInfo m (c :: rest)) =
              endKeyFrom (k ++ [d])
                (if r.end_.op = .le then makeEndInfo m rest else []) := by
            simp [makeEndInfo, hmc, endKeyFrom, makeEndKeyLoop, hd, hlt,
              encodeTableKey]
          rw [hloop]
          by_cases hle : r.end_.op = .le
          · rw [if_pos hle]
            rcases Nat.eq_or_lt_of_le hdx with heq | hdlt
            · subst heq
              have := ih (k ++ [ρ c]) suffix (by simp)
              simpa [List.append_assoc] using this
            · rcases endKeyFrom_shape (makeEndInfo m rest) k d with ⟨w, hw⟩ | hw
              · rw [hw]
                simpa using keyLt_append_lt hdlt k (rest.map ρ ++ suffix) w
              · rw [hw]
                have hx : ρ c < d + 1 := Nat.lt_succ_of_lt hdlt
                simpa using keyLt_append_lt hx k (rest.map ρ ++ suffix) []
          · rw [if_neg hle]
            have hempty : endKeyFrom (k ++ [d]) [] = k ++ [d + 1] := by
              simp only [endKeyFrom, makeEndKeyLoop, Bool.false_eq_true, if_false]
              rw [prefixEnd_append k [d] (by simp)]
              rfl
            rw [hempty]
            have hx : ρ c < d + 1 := Nat.lt_succ_of_le hdx
            simpa using keyLt_append_lt hx k (rest.map ρ ++ suffix) []

/-! ## Soundness of the range constraint algebra -/

theorem startHolds_val {q : qvalueInfo} {dq : Datum} (hqd : q.datum = some dq)
    {x : Datum} (h : q.startHolds x = true) : dq ≤ x := by
  simp only [qvalueInfo.startHolds, hqd] at h
  split at h
  · exact le_of_lt (by simpa using h)
  · simpa using h

theorem endHolds_val {q : qvalueInfo} {dq : Datum} (hqd : q.datum = some dq)
    {x : Datum} (h : q.endHolds x = true) : x ≤ dq := by
  simp only [qvalueInfo.endHolds, hqd] at h
  split at h
  · exact le_of_lt (by simpa using h)
  · simpa using h

theorem startHolds_of_lt {q : qvalueInfo} {dq : Datum} (hqd : q.datum = some dq)
    {x : Datum} (h : dq < x) : q.startHolds x = true := by
  simp only [qvalueInfo.startHolds, hqd]
  split <;> simp [h, le_of_lt h]

theorem endHolds_of_lt {q : qvalueInfo} {dq : Datum} (hqd : q.datum = some dq)
    {x : Datum} (h : x < dq) : q.endHolds x = true := by
  simp only [qvalueInfo.endHolds, hqd]
  split <;> simp [h, le_of_lt h]

theorem intersect_startHolds (q n : qvalueInfo) (x : Datum)
    (hq : q.startHolds x = true) (hn : n.startHolds x = true) :
    (q.intersect n true).startHolds x = true := by
  unfold qvalueInfo.intersect
  cases hqd : q.datum with
  | none => exact hn
  | some dq =>
    cases hnd : n.datum with
    | none => simpa [qvalueInfo.startHolds, hqd] using hq
    | some dn =>
      rcases Nat.lt_trichotomy dn dq with hlt | heq | hgt
      · have h1 : cmpDatum dn dq = -1 := by simp [cmpDatum, hlt]
        simp only [h1]
        norm_num
        simpa [qvalueInfo.startHolds, hqd] using hq
      · subst heq
        have h1 : cmpDatum dn dn = 0 := by simp [cmpDatum]
        simp only [h1]
        norm_num
        by_cases hop : n.op = .gt ∨ n.op = .lt
        · rw [if_pos hop]
          rcases hop with hgt | hlt
          · have : dn < x := by
              simpa [qvalueInfo.startHolds, hnd, hgt] using hn
            simp [qvalueInfo.startHolds, hqd, this, le_of_lt this]
          · have hle : dn ≤ x := startHolds_val hqd hq
            have : ¬ (qvalueInfo.mk q.datum n.op).op = .gt := by simp [hlt]
            simp [qvalueInfo.startHolds, hqd, hlt, hle]
        · rw [if_neg hop]
          simpa [qvalueInfo.startHolds, hqd] using hq
      · have h1 : cmpDatum dn dq = 1 := by
          simp [cmpDatum, hgt, Nat.lt_asymm hgt]
        simp only [h1]
        norm_num
        exact hn

theorem intersect_endHolds (q n : qvalueInfo) (x : Datum)
    (hq : q.endHolds x = true) (hn : n.endHolds x = true) :
    (q.intersect n false).endHolds x = true := by
  unfold qvalueInfo.intersect
  cases hqd : q.datum with
  | none => exact hn
  | some dq =>
    cases hnd : n.datum with
    | none => simpa [qvalueInfo.endHolds, hqd] using hq
    | some dn =>
      rcases Nat.lt_trichotomy dn dq with hlt | heq | hgt
      · have h1 : cmpDatum dn dq = -1 := by simp [cmpDatum, hlt]
        simp only [h1]
        norm_num
        exact hn
      · subst heq
        have h1 : cmpDatum dn dn = 0 := by simp [cmpDatum]
        simp only [h1]
        norm_num
        by_cases hop : n.op = .gt ∨ n.op = .lt
        · rw [if_pos hop]
          rcases hop with hgt | hlt
          · have hle : x ≤ dn := endHolds_val hqd hq
            simp [qvalueInfo.endHolds, hqd, hgt, hle]
          · have : x < dn := by
              simpa [qvalueInfo.endHolds, hnd, hlt] using hn
            simp [qvalueInfo.endHolds, hqd, hlt, this, le_of_lt this]
        · rw [if_neg hop]
          simpa [qvalueInfo.endHolds, hqd] using hq
      · have h1 : cmpDatum dn dq = 1 := by
          simp [cmpDatum, hgt, Nat.lt_asymm hgt]
        simp only [h1]
        norm_num
        simpa [qvalueInfo.endHolds, hqd] using hq

theorem union_startHolds (q n : qvalueInfo) (x dq dn : Datum)
    (hqd : q.datum = some dq) (hnd : n.datum = some dn)
    (hop : n.op = .ge ∨ n.op = .gt)
    (h : q.startHolds x = true ∨ n.startHolds x = true) :
    (q.union n true).startHolds x = true := by
  unfold qvalueInfo.union
  rw [hqd, hnd]
  have hqx : q.startHolds x = true → dq ≤ x := startHolds_val hqd
  have hnx : n.startHolds x = true → dn ≤ x := startHolds_val hnd
  rcases Nat.lt_trichotomy dn dq with hlt | heq | hgt
  · have h1 : cmpDatum dn dq = -1 := by simp [cmpDatum, hlt]
    simp only [h1]
    norm_num
    rcases h with hq | hn
    · exact startHolds_of_lt hnd (lt_of_lt_of_le hlt (hqx hq))
    · exact hn
  · subst heq
    have h1 : cmpDatum dn dn = 0 := by simp [cmpDatum]
    simp only [h1]
    norm_num
    have hdnx : dn ≤ x := by
      rcases h with hq | hn
      · exact hqx hq
      · exact hnx hn
    by_cases hop2 : n.op = .ge ∨ n.op = .le
    · rw [if_pos hop2]
      have : n.op = .ge := by
        rcases hop with h | h <;> rcases hop2 with h2 | h2 <;> simp_all
      simp [qvalueInfo.startHolds, hqd, this, hdnx]
    · rw [if_neg hop2]
      have hngt : n.op = .gt := by
        rcases hop with h | h
        · exact absurd (Or.inl h) hop2
        · exact h
      rcases h with hq | hn
      · exact hq
      · have : dn < x := by
          simpa [qvalueInfo.startHolds, hnd, hngt] using hn
        exact startHolds_of_lt hqd this
  · have h1 : cmpDatum dn dq = 1 := by
      simp [cmpDatum, hgt, Nat.lt_asymm hgt]
    simp only [h1]
    norm_num
    rcases h with hq | hn
    · exact hq
    · exact startHolds_of_lt hqd (lt_of_lt_of_le hgt (hnx hn))

theorem union_endHolds (q n : qvalueInfo) (x dq dn : Datum)
    (hqd : q.datum = some dq) (hnd : n.datum = some dn)
    (hop : n.op = .le ∨ n.op = .lt)
    (h : q.endHolds x = true ∨ n.endHolds x = true) :
    (q.union n false).endHolds x = true := by
  unfold qvalueInfo.union
  rw [hqd, hnd]
  have hqx : q.endHolds x = true → x ≤ dq := endHolds_val hqd
  have hnx : n.endHolds x = true → x ≤ dn := endHolds_val hnd
  rcases Nat.lt_trichotomy dn dq with hlt | heq | hgt
  · have h1 : cmpDatum dn dq = -1 := by simp [cmpDatum, hlt]
    simp only [h1]
    norm_num
    rcases h with hq | hn
    · exact hq
    · exact endHolds_of_lt hqd (lt_of_le_of_lt (hnx hn) hlt)
  · subst heq
    have h1 : cmpDatum dn dn = 0 := by simp [cmpDatum]
    simp only [h1]
    norm_num
    have hdnx : x ≤ dn := by
      rcases h with hq | hn
      · exact hqx hq
      · exact hnx hn
    by_cases hop2 : n.op = .ge ∨ n.op = .le
    · rw [if_pos hop2]
      have : n.op = .le := by
        rcases hop with h | h <;> rcases hop2 with h2 | h2 <;> simp_all
      simp [qvalueInfo.endHolds, hqd, this, hdnx]
    · rw [if_neg hop2]
      have hnlt : n.op = .lt := by
        rcases hop with h | h
        · exact absurd (Or.inr h) hop2
        · exact h
      rcases h with hq | hn
      · exact hq
      · have : x < dn := by
          simpa [qvalueInfo.endHolds, hnd, hnlt] using hn
        exact endHolds_of_lt hqd this
  · have h1 : cmpDatum dn dq = 1 := by
      simp [cmpDatum, hgt, Nat.lt_asymm hgt]
    simp only [h1]
    norm_num
    rcases h with hq | hn
    · exact endHolds_of_lt hnd (lt_of_le_of_lt (hqx hq) hgt)
    · exact hn

/-! ## Structure of intersect / union results and invariants of the maps -/

theorem intersect_shape (q n : qvalueInfo) (start : Bool) :
    q.intersect n start = n ∨ q.intersect n start = { q with op := n.op } ∨
      q.intersect n start = q := by
  obtain ⟨qd, qop⟩ := q
  obtain ⟨nd, nop⟩ := n
  unfold qvalueInfo.intersect
  cases qd with
  | none => exact .inl rfl
  | some dq =>
    cases nd with
    | none => exact .inr (.inr rfl)
    | some dn =>
      dsimp only
      split_ifs <;> simp

theorem union_shape (q n : qvalueInfo) (start : Bool) :
    q.union n start = n ∨ q.union n start = { q with op := n.op } ∨
      q.union n start = q := by
  obtain ⟨qd, qop⟩ := q
  obtain ⟨nd, nop⟩ := n
  unfold qvalueInfo.union
  cases qd with
  | none => exact .inl rfl
  | some dq =>
    cases nd with
    | none => exact .inr (.inr rfl)
    | some dn =>
      dsimp only
      split_ifs <;> simp

theorem emptyRange_holds (x : Datum) : rangeHolds emptyRange x = true := rfl

theorem getD_holds (m : qvalueRangeMap) (ρ : Row) (hm : mapHolds m ρ)
    (col : ColumnID) : rangeHolds ((m col).getD emptyRange) (ρ col) = true := by
  cases h : m col with
  | none => exact emptyRange_holds _
  | some r => exact hm col r h

/-- The well-formedness facts of one map entry, phrased for the
`(m col).getD emptyRange` read of `getRange`. -/
theorem getD_WF (m : qvalueRangeMap) (hw : mapWF m) (col : ColumnID) :
    (((m col).getD emptyRange).start.datum ≠ none →
        ((m col).getD emptyRange).start.op = .ge ∨
          ((m col).getD emptyRange).start.op = .gt) ∧
      (((m col).getD emptyRange).end_.datum ≠ none →
        ((m col).getD emptyRange).end_.op = .le ∨
          ((m col).getD emptyRange).end_.op = .lt) := by
  cases h : m col with
  | none => simp [emptyRange]
  | some r => exact hw col r h

theorem applyBounds_holds (m : qvalueRangeMap) (ρ : Row) (hm : mapHolds m ρ)
    (col : ColumnID) (op : COp) (d : Datum)
    (hrel : cmpHolds op (ρ col) d = some true) :
    mapHolds (m.applyBounds col op d) ρ := by
  have h0 := getD_holds m ρ hm col
  simp only [rangeHolds, Bool.and_eq_true] at h0
  intro c r hr
  simp only [qvalueRangeMap.applyBounds] at hr
  by_cases hc : c = col
  swap
  · rw [if_neg hc] at hr
    exact hm c r hr
  · subst hc
    rw [if_pos rfl] at hr
    injection hr with hr
    subst hr
    simp only [rangeHolds, Bool.and_eq_true]
    cases op <;>
      simp only [cmpHolds, Option.some.injEq, decide_eq_true_eq] at hrel <;>
      dsimp only
    · exact ⟨intersect_startHolds _ _ _ h0.1
          (by simp [qvalueInfo.startHolds, hrel]),
        intersect_endHolds _ _ _ h0.2 (by simp [qvalueInfo.endHolds, hrel])⟩
    · exact ⟨h0.1,
        intersect_endHolds _ _ _ h0.2 (by simp [qvalueInfo.endHolds, hrel])⟩
    · exact ⟨intersect_startHolds _ _ _ h0.1
          (by simp [qvalueInfo.startHolds, hrel]), h0.2⟩
    · exact ⟨h0.1,
        intersect_endHolds _ _ _ h0.2 (by simp [qvalueInfo.endHolds, hrel])⟩
    · exact ⟨intersect_startHolds _ _ _ h0.1
          (by simp [qvalueInfo.startHolds, hrel]), h0.2⟩
    · exact ⟨h0.1, h0.2⟩
    · exact ⟨h0.1, h0.2⟩

theorem intersect_WF_op (q n : qvalueInfo) (start : Bool) (P : COp → Prop)
    (hq : q.datum ≠ none → P q.op) (hn : P n.op)
    (h : (q.intersect n start).datum ≠ none) : P (q.intersect n start).op := by
  rcases intersect_shape q n start with hs | hs | hs <;> rw [hs] at h ⊢
  · exact hn
  · exact hn
  · exact hq h

theorem union_WF_op (q n : qvalueInfo) (start : Bool) (P : COp → Prop)
    (hq : q.datum ≠ none → P q.op) (hn : P n.op)
    (h : (q.union n start).datum ≠ none) : P (q.union n start).op := by
  rcases union_shape q n start with hs | hs | hs <;> rw [hs] at h ⊢
  · exact hn
  · exact hn
  · exact hq h

theorem applyBounds_WF (m : qvalueRangeMap) (hw : mapWF m) (col : ColumnID)
    (op : COp) (d : Datum) : mapWF (m.applyBounds col op d) := by
  have h0 := getD_WF m hw col
  intro c r hr
  simp only [qvalueRangeMap.applyBounds] at hr
  by_cases hc : c = col
  swap
  · rw [if_neg hc] at hr
    exact hw c r hr
  · subst hc
    rw [if_pos rfl] at hr
    injection hr with hr
    subst hr
    cases op <;> dsimp only <;>
      refine ⟨fun h => ?_, fun h => ?_⟩
    · exact intersect_WF_op _ _ _ (fun o => o = COp.ge ∨ o = COp.gt) h0.1 (.inl rfl) h
    · exact intersect_WF_op _ _ _ (fun o => o = COp.le ∨ o = COp.lt) h0.2 (.inl rfl) h
    · exact h0.1 h
    · exact intersect_WF_op _ _ _ (fun o => o = COp.le ∨ o = COp.lt) h0.2 (.inr rfl) h
    · exact intersect_WF_op _ _ _ (fun o => o = COp.ge ∨ o = COp.gt) h0.1 (.inr rfl) h
    · exact h0.2 h
    · exact h0.1 h
    · exact intersect_WF_op _ _ _ (fun o => o = COp.le ∨ o = COp.lt) h0.2 (.inl rfl) h
    · exact intersect_WF_op _ _ _ (fun o => o = COp.ge ∨ o = COp.gt) h0.1 (.inl rfl) h
    · exact h0.2 h
    · exact h0.1 h
    · exact h0.2 h
    · exact h0.1 h
    · exact h0.2 h

/-! ## Soundness of the analyzer -/

theorem evalSide_of_isConst (ρ : Row) :
    ∀ e : Expr, isConst e = true → evalSide ρ e = evalExpr e := by
  intro e h
  induction e <;> simp_all [isConst, evalSide, evalExpr]

theorem invert_cmpHolds (op : COp) (a b : Datum)
    (h : cmpHolds op a b = some true) :
    cmpHolds (invertOp op) b a = some true := by
  cases op with
  | eq =>
    simp only [cmpHolds, invertOp, Option.some.injEq, decide_eq_true_eq] at h ⊢
    exact h.symm
  | ne =>
    simp only [cmpHolds, invertOp, Option.some.injEq, decide_eq_true_eq] at h ⊢
    exact h.symm
  | lt => exact h
  | le => exact h
  | gt => exact h
  | ge => exact h
  | otherOp => exact h

theorem cmpHolds_isSome (op : COp)
    (hops : op = .eq ∨ op = .lt ∨ op = .le ∨ op = .gt ∨ op = .ge)
    (a b : Datum) : ∃ v, cmpHolds op a b = some v := by
  rcases hops with h | h | h | h | h <;> subst h <;> exact ⟨_, rfl⟩

theorem analyzeComparisonExpr_holds (m : qvalueRangeMap) (ρ : Row) (ω : Oracle)
    (hm : mapHolds m ρ) (op : COp) (l r : Expr)
    (hsat : satCmp ω ρ op l r = true) :
    mapHolds (m.analyzeComparisonExpr op l r) ρ := by
  unfold qvalueRangeMap.analyzeComparisonExpr
  by_cases hops : op = .eq ∨ op = .lt ∨ op = .le ∨ op = .gt ∨ op = .ge
  swap
  · rw [if_neg hops]; exact hm
  rw [if_pos hops]
  cases hql : asQval l with
  | some col =>
    dsimp only
    have hl : l = .qval col := by cases l <;> simp_all [asQval]
    by_cases hcr : isConst r = true
    swap
    · rw [if_neg hcr]; exact hm
    rw [if_pos hcr]
    cases her : evalExpr r with
    | none => exact hm
    | some d =>
      apply applyBounds_holds m ρ hm col op d
      have hrv : evalSide ρ r = some d := by
        rw [evalSide_of_isConst ρ r hcr, her]
      have hlv : evalSide ρ l = some (ρ col) := by rw [hl]; rfl
      unfold satCmp at hsat
      rw [hlv, hrv] at hsat
      dsimp only at hsat
      obtain ⟨v, hv⟩ := cmpHolds_isSome op hops (ρ col) d
      rw [hv] at hsat
      dsimp only at hsat
      rw [hv, hsat]
  | none =>
    dsimp only
    cases hqr : asQval r with
    | none => exact hm
    | some col =>
      dsimp only
      have hr : r = .qval col := by cases r <;> simp_all [asQval]
      by_cases hcl : isConst l = true
      swap
      · rw [if_neg hcl]; exact hm
      rw [if_pos hcl]
      cases hel : evalExpr l with
      | none => exact hm
      | some d =>
        apply applyBounds_holds m ρ hm col (invertOp op) d
        have hlv : evalSide ρ l = some d := by
          rw [evalSide_of_isConst ρ l hcl, hel]
        have hrv : evalSide ρ r = some (ρ col) := by rw [hr]; rfl
        unfold satCmp at hsat
        rw [hlv, hrv] at hsat
        dsimp only at hsat
        obtain ⟨v, hv⟩ := cmpHolds_isSome op hops d (ρ col)
        rw [hv] at hsat
        dsimp only at hsat
        subst hsat
        exact invert_cmpHolds op d (ρ col) hv

theorem analyzeComparisonExpr_WF (m : qvalueRangeMap) (hw : mapWF m)
    (op : COp) (l r : Expr) : mapWF (m.analyzeComparisonExpr op l r) := by
  unfold qvalueRangeMap.analyzeComparisonExpr
  repeat' split
  all_goals first
  | exact applyBounds_WF m hw _ _ _
  | exact hw

theorem orMerge_holds (m left right : qvalueRangeMap) (ρ : Row)
    (hm : mapHolds m ρ) (hwl : mapWF left) (hwr : mapWF right)
    (h : mapHolds left ρ ∨ mapHolds right ρ) :
    mapHolds (orMerge m left right) ρ := by
  intro c r hr
  unfold orMerge at hr
  cases hl : left c with
  | none =>
    cases hrt : right c <;> rw [hl, hrt] at hr <;> exact hm c r hr
  | some lR =>
    cases hrt : right c with
    | none => rw [hl, hrt] at hr; exact hm c r hr
    | some rR =>
      rw [hl, hrt] at hr
      dsimp only at hr
      set S := if lR.start.datum ≠ none ∧ rR.start.datum ≠ none then
          lR.start.union rR.start true else (⟨none, .eq⟩ : qvalueInfo) with hS
      set E := if lR.end_.datum ≠ none ∧ rR.end_.datum ≠ none then
          lR.end_.union rR.end_ false else (⟨none, .eq⟩ : qvalueInfo) with hE
      split at hr
      swap
      · exact hm c r hr
      injection hr with hr
      subst hr
      simp only [rangeHolds, Bool.and_eq_true]
      constructor
      · show S.startHolds (ρ c) = true
        rw [hS]
        split
        case isTrue hcond =>
          obtain ⟨dq, hdq⟩ : ∃ dq, lR.start.datum = some dq := by
            cases hx : lR.start.datum
            · exact absurd hx hcond.1
            · exact ⟨_, rfl⟩
          obtain ⟨dn, hdn⟩ : ∃ dn, rR.start.datum = some dn := by
            cases hx : rR.start.datum
            · exact absurd hx hcond.2
            · exact ⟨_, rfl⟩
          refine union_startHolds _ _ _ dq dn hdq hdn
            ((hwr c rR hrt).1 (by simp [hdn])) ?_
          rcases h with hL | hR
          · have := hL c lR hl
            simp only [rangeHolds, Bool.and_eq_true] at this
            exact .inl this.1
          · have := hR c rR hrt
            simp only [rangeHolds, Bool.and_eq_true] at this
            exact .inr this.1
        case isFalse => simp [qvalueInfo.startHolds]
      · show E.endHolds (ρ c) = true
        rw [hE]
        split
        case isTrue hcond =>
          obtain ⟨dq, hdq⟩ : ∃ dq, lR.end_.datum = some dq := by
            cases hx : lR.end_.datum
            · exact absurd hx hcond.1
            · exact ⟨_, rfl⟩
          obtain ⟨dn, hdn⟩ : ∃ dn, rR.end_.datum = some dn := by
            cases hx : rR.end_.datum
            · exact absurd hx hcond.2
            · exact ⟨_, rfl⟩
          refine union_endHolds _ _ _ dq dn hdq hdn
            ((hwr c rR hrt).2 (by simp [hdn])) ?_
          rcases h with hL | hR
          · have := hL c lR hl
            simp only [rangeHolds, Bool.and_eq_true] at this
            exact .inl this.2
          · have := hR c rR hrt
            simp only [rangeHolds, Bool.and_eq_true] at this
            exact .inr this.2
        case isFalse => simp [qvalueInfo.endHolds]

theorem orMerge_WF (m left right : qvalueRangeMap)
    (hw : mapWF m) (hwl : mapWF left) (hwr : mapWF right) :
    mapWF (orMerge m left right) := by
  intro c r hr
  unfold orMerge at hr
  cases hl : left c with
  | none =>
    cases hrt : right c <;> rw [hl, hrt] at hr <;> exact hw c r hr
  | some lR =>
    cases hrt : right c with
    | none => rw [hl, hrt] at hr; exact hw c r hr
    | some rR =>
      rw [hl, hrt] at hr
      dsimp only at hr
      set S := if lR.start.datum ≠ none ∧ rR.start.datum ≠ none then
          lR.start.union rR.start true else (⟨none, .eq⟩ : qvalueInfo) with hS
      set E := if lR.end_.datum ≠ none ∧ rR.end_.datum ≠ none then
          lR.end_.union rR.end_ false else (⟨none, .eq⟩ : qvalueInfo) with hE
      split at hr
      swap
      · exact hw c r hr
      injection hr with hr
      subst hr
      constructor
      · show S.datum ≠ none → S.op = .ge ∨ S.op = .gt
        rw [hS]
        split
        case isTrue hcond =>
          intro h
          exact union_WF_op _ _ _ (fun o => o = COp.ge ∨ o = COp.gt)
            (fun hd => (hwl c lR hl).1 hd) ((hwr c rR hrt).1 hcond.2) h
        case isFalse => intro h; simp at h
      · show E.datum ≠ none → E.op = .le ∨ E.op = .lt
        rw [hE]
        split
        case isTrue hcond =>
          intro h
          exact union_WF_op _ _ _ (fun o => o = COp.le ∨ o = COp.lt)
            (fun hd => (hwl c lR hl).2 hd) ((hwr c rR hrt).2 hcond.2) h
        case isFalse => intro h; simp at h

theorem emptyRangeMap_holds (ρ : Row) : mapHolds emptyRangeMap ρ :=
  fun c r h => by simp [emptyRangeMap] at h

theorem emptyRangeMap_WF : mapWF emptyRangeMap :=
  fun c r h => by simp [emptyRangeMap] at h

theorem analyzeExpr_WF : ∀ (e : Expr) (m : qvalueRangeMap),
    mapWF m → mapWF (m.analyzeExpr e)
  | .qval _, _, hw => hw
  | .constE _, _, hw => hw
  | .not _, _, hw => hw
  | .or l r, m, hw =>
    orMerge_WF m _ _ hw (analyzeExpr_WF l _ emptyRangeMap_WF)
      (analyzeExpr_WF r _ emptyRangeMap_WF)
  | .and l r, m, hw => analyzeExpr_WF r _ (analyzeExpr_WF l m hw)
  | .paren e, m, hw => analyzeExpr_WF e m hw
  | .cmp op l r, m, hw => analyzeComparisonExpr_WF m hw op l r
  | .rangeCond true l f t, m, hw =>
    orMerge_WF m _ _ hw (analyzeComparisonExpr_WF _ emptyRangeMap_WF _ _ _)
      (analyzeComparisonExpr_WF _ emptyRangeMap_WF _ _ _)
  | .rangeCond false l f t, m, hw =>
    analyzeComparisonExpr_WF _ (analyzeComparisonExpr_WF m hw _ _ _) _ _ _
  | .other _, _, hw => hw

theorem analyzeExpr_holds : ∀ (e : Expr) (m : qvalueRangeMap) (ρ : Row)
    (ω : Oracle), mapHolds m ρ → e.sat ω ρ = true →
    mapHolds (m.analyzeExpr e) ρ
  | .qval _, _, _, _, hm, _ => hm
  | .constE _, _, _, _, hm, _ => hm
  | .not _, _, _, _, hm, _ => hm
  | .or l r, m, ρ, ω, hm, hs => by
    have hs' : l.sat ω ρ = true ∨ r.sat ω ρ = true := by
      simpa [Expr.sat, Bool.or_eq_true] using hs
    exact orMerge_holds m _ _ ρ hm (analyzeExpr_WF l _ emptyRangeMap_WF)
      (analyzeExpr_WF r _ emptyRangeMap_WF)
      (hs'.imp (fun h => analyzeExpr_holds l _ ρ ω (emptyRangeMap_holds ρ) h)
        (fun h => analyzeExpr_holds r _ ρ ω (emptyRangeMap_holds ρ) h))
  | .and l r, m, ρ, ω, hm, hs => by
    have h1 : l.sat ω ρ = true ∧ r.sat ω ρ = true := by
      simpa [Expr.sat, Bool.and_eq_true] using hs
    exact analyzeExpr_holds r _ ρ ω (analyzeExpr_holds l m ρ ω hm h1.1) h1.2
  | .paren e, m, ρ, ω, hm, hs =>
    analyzeExpr_holds e m ρ ω hm (by simpa [Expr.sat] using hs)
  | .cmp op l r, m, ρ, ω, hm, hs =>
    analyzeComparisonExpr_holds m ρ ω hm op l r (by simpa [Expr.sat] using hs)
  | .rangeCond true l f t, m, ρ, ω, hm, hs => by
    have hs' : satCmp ω ρ .lt l f = true ∨ satCmp ω ρ .gt l t = true := by
      simpa [Expr.sat, Bool.or_eq_true] using hs
    exact orMerge_holds m _ _ ρ hm
      (analyzeComparisonExpr_WF _ emptyRangeMap_WF _ _ _)
      (analyzeComparisonExpr_WF _ emptyRangeMap_WF _ _ _)
      (hs'.imp
        (fun h => analyzeComparisonExpr_holds _ ρ ω (emptyRangeMap_holds ρ) _ _ _ h)
        (fun h => analyzeComparisonExpr_holds _ ρ ω (emptyRangeMap_holds ρ) _ _ _ h))
  | .rangeCond false l f t, m, ρ, ω, hm, hs => by
    have h1 : satCmp ω ρ .ge l f = true ∧ satCmp ω ρ .le l t = true := by
      simpa [Expr.sat, Bool.and_eq_true] using hs
    exact analyzeComparisonExpr_holds _ ρ ω
      (analyzeComparisonExpr_holds m ρ ω hm _ _ _ h1.1) _ _ _ h1.2
  | .other _, _, _, _, hm, _ => hm

/-! ## The sort permutes its input -/

section SortPerm

variable {α : Type} [Inhabited α]

theorem set_lget_self : ∀ (l : List α) (i : Nat), l.set i (lget l i) = l
  | [], _ => rfl
  | _ :: _, 0 => rfl
  | x :: xs, i + 1 => by
    simp only [List.set, lget, List.getD, List.get?_cons_succ]
    have := set_lget_self xs i
    simp only [lget, List.getD] at this
    rw [this]

theorem swapHead : ∀ (xs : List α) (k : Nat) (x : α), k < xs.length →
    List.Perm (lget xs k :: xs.set k x) (x :: xs)
  | [], k, x, h => by simp at h
  | y :: ys, 0, x, _ => by
    simp only [lget, List.getD, List.get?_cons_zero, List.set]
    exact List.Perm.swap x y ys
  | y :: ys, k + 1, x, h => by
    simp only [lget, List.getD, List.get?_cons_succ, List.set]
    have ih := swapHead ys k x (by simpa using h)
    exact (List.Perm.swap y (lget ys k) (ys.set k x)).trans
      ((ih.cons y).trans (List.Perm.swap x y ys))

theorem lswap_perm_lt : ∀ (l : List α) (i j : Nat), i < j → j < l.length →
    List.Perm ((l.set i (lget l j)).set j (lget l i)) l
  | [], _, _, _, hj => by simp at hj
  | x :: xs, 0, j + 1, _, hj => by
    simp only [lget, List.getD, List.get?_cons_zero, List.get?_cons_succ, List.set]
    exact swapHead xs j x (by simpa using hj)
  | x :: xs, i + 1, j + 1, hi, hj => by
    simp only [lget, List.getD, List.get?_cons_succ, List.set]
    exact (lswap_perm_lt xs i j (by omega) (by simpa using hj)).cons x

theorem lswap_perm (l : List α) (i j : Nat) : List.Perm (lswap l i j) l := by
  unfold lswap
  split
  case isFalse => exact List.Perm.refl l
  case isTrue h =>
    rcases Nat.lt_trichotomy i j with hij | hij | hij
    · exact lswap_perm_lt l i j hij h.2
    · subst hij
      rw [List.set_set, set_lget_self]
    · rw [List.set_comm _ _ _ (by omega)]
      exact lswap_perm_lt l j i hij h.1

theorem ite_lswap_perm (cond : Prop) [Decidable cond] (l : List α) (i j : Nat) :
    List.Perm (if cond then lswap l i j else l) l := by
  split
  · exact lswap_perm l i j
  · exact List.Perm.refl l

theorem bubbleInsert_perm (less : α → α → Bool) :
    ∀ (l : List α) (x : α), List.Perm (bubbleInsert less l x) (x :: l)
  | [], x => List.Perm.refl _
  | y :: ys, x => by
    unfold bubbleInsert
    split
    · exact List.Perm.refl _
    · exact ((bubbleInsert_perm less ys x).cons y).trans
        (List.Perm.swap x y ys)

theorem goInsertionSort_perm_aux (less : α → α → Bool) :
    ∀ (l acc : List α),
    List.Perm (List.foldl (fun a x => bubbleInsert less a x) acc l) (acc ++ l)
  | [], acc => by simp
  | x :: xs, acc => by
    simp only [List.foldl_cons]
    refine (goInsertionSort_perm_aux less xs _).trans
      (((bubbleInsert_perm less acc x).append_right xs).trans ?_)
    simpa using (@List.perm_middle _ x acc xs).symm

theorem goInsertionSort_perm (less : α → α → Bool) (l : List α) :
    List.Perm (goInsertionSort less l) l := by
  simpa using goInsertionSort_perm_aux less l []

theorem take_drop_take (l : List α) (a b : Nat) (hab : a ≤ b) :
    l.take a ++ ((l.take b).drop a ++ l.drop b) = l := by
  have h1 : (l.take b).take a = l.take a := by
    rw [List.take_take, Nat.min_eq_left hab]
  calc l.take a ++ ((l.take b).drop a ++ l.drop b)
      = ((l.take b).take a ++ (l.take b).drop a) ++ l.drop b := by
        rw [h1, List.append_assoc]
    _ = l.take b ++ l.drop b := by rw [List.take_append_drop]
    _ = l := List.take_append_drop b l

theorem insertionSortRange_perm (less : α → α → Bool) (l : List α) (a b : Nat)
    (hab : a ≤ b) : List.Perm (insertionSortRange less l a b) l := by
  unfold insertionSortRange
  have h1 : List.Perm
      (l.take a ++ goInsertionSort less ((l.take b).drop a) ++ l.drop b)
      (l.take a ++ ((l.take b).drop a ++ l.drop b)) := by
    rw [List.append_assoc]
    exact ((goInsertionSort_perm less _).append_right _).append_left _
  rw [take_drop_take l a b hab] at h1
  exact h1

theorem medianOfThree_perm (less : α → α → Bool) (l : List α) (a b c : Nat) :
    List.Perm (medianOfThree less l a b c) l := by
  unfold medianOfThree
  exact (ite_lswap_perm _ _ _ _).trans
    ((ite_lswap_perm _ _ _ _).trans (ite_lswap_perm _ _ _ _))

theorem swapRange_perm (l : List α) (a b : Nat) :
    ∀ (n : Nat), List.Perm (swapRange l a b n) l := by
  intro n
  induction n generalizing l a b with
  | zero => exact List.Perm.refl l
  | succ n ih =>
    unfold swapRange
    exact (ih (lswap l a b) (a + 1) (b + 1)).trans (lswap_perm l a b)

theorem doPivotLoop1_perm (less : α → α → Bool) (pivot : Nat) :
    ∀ (fuel : Nat) (l : List α) (a b c : Nat), c - b ≤ fuel →
    List.Perm (doPivotLoop1 less pivot l a b c).1 l := by
  intro fuel
  induction fuel with
  | zero =>
    intro l a b c h
    rw [doPivotLoop1]
    split
    case isTrue hbc => omega
    case isFalse => exact List.Perm.refl l
  | succ fuel ih =>
    intro l a b c h
    rw [doPivotLoop1]
    split
    case isFalse => exact List.Perm.refl l
    case isTrue hbc =>
      split
      · exact ih l a (b + 1) c (by omega)
      · split
        · exact (ih (lswap l a b) (a + 1) (b + 1) c (by omega)).trans
            (lswap_perm l a b)
        · exact List.Perm.refl l

theorem doPivotLoop2_perm (less : α → α → Bool) (pivot : Nat) :
    ∀ (fuel : Nat) (l : List α) (b c d : Nat), c ≤ fuel →
    List.Perm (doPivotLoop2 less pivot l b c d).1 l := by
  intro fuel
  induction fuel with
  | zero =>
    intro l b c d h
    rw [doPivotLoop2]
    split
    case isTrue hbc => omega
    case isFalse => exact List.Perm.refl l
  | succ fuel ih =>
    intro l b c d h
    rw [doPivotLoop2]
    split
    case isFalse => exact List.Perm.refl l
    case isTrue hbc =>
      split
      · exact ih l b (c - 1) d (by omega)
      · split
        · exact (ih (lswap l (c - 1) (d - 1)) b (c - 1) (d - 1) (by omega)).trans
            (lswap_perm l (c - 1) (d - 1))
        · exact List.Perm.refl l

theorem doPivotOuter_perm (less : α → α → Bool) (pivot : Nat) :
    ∀ (fuel : Nat) (l : List α) (a b c d : Nat),
    List.Perm (doPivotOuter less pivot fuel l a b c d).1 l := by
  intro fuel
  induction fuel with
  | zero => intro l a b c d; exact List.Perm.refl l
  | succ fuel ih =>
    intro l a b c d
    unfold doPivotOuter
    dsimp only
    have h1 := doPivotLoop1_perm less pivot (c - b) l a b c (le_refl _)
    have h2 := doPivotLoop2_perm less pivot
      ((doPivotLoop1 less pivot l a b c).2.2 + c) (doPivotLoop1 less pivot l a b c).1
      (doPivotLoop1 less pivot l a b c).2.2 c d (by omega)
    split
    · exact h2.trans h1
    · exact (ih _ _ _ _ _).trans
        ((lswap_perm _ _ _).trans (h2.trans h1))

theorem doPivot_perm (less : α → α → Bool) (l : List α) (lo hi : Nat) :
    List.Perm (doPivot less l lo hi).1 l := by
  unfold doPivot
  refine (swapRange_perm _ _ _ _).trans
    ((swapRange_perm _ _ _ _).trans
      ((doPivotOuter_perm less lo (hi + 1) _ _ _ _ _).trans
        ((medianOfThree_perm less _ lo _ (hi - 1)).trans ?_)))
  split
  · exact (medianOfThree_perm _ _ _ _ _).trans
      ((medianOfThree_perm _ _ _ _ _).trans (medianOfThree_perm _ _ _ _ _))
  · exact List.Perm.refl l

theorem siftDown_perm (less : α → α → Bool) :
    ∀ (fuel : Nat) (l : List α) (root hi first : Nat), hi - root ≤ fuel →
    List.Perm (siftDown less l root hi first) l := by
  intro fuel
  induction fuel with
  | zero =>
    intro l root hi first h
    rw [siftDown]
    split
    case isTrue => exact List.Perm.refl l
    case isFalse hch => omega
  | succ fuel ih =>
    intro l root hi first h
    rw [siftDown]
    split
    case isTrue => exact List.Perm.refl l
    case isFalse hch =>
      dsimp only
      split <;> split
      all_goals
        first
        | exact List.Perm.refl l
        | (refine (ih _ _ _ _ ?_).trans (lswap_perm _ _ _); omega)

theorem heapBuild_perm (less : α → α → Bool) (hi first : Nat) :
    ∀ (k : Nat) (l : List α), List.Perm (heapBuild less hi first l k) l := by
  intro k
  induction k with
  | zero => intro l; exact List.Perm.refl l
  | succ k ih =>
    intro l
    exact (ih _).trans (siftDown_perm less (hi - k) l k hi first (le_refl _))

theorem heapPop_perm (less : α → α → Bool) (first : Nat) :
    ∀ (k : Nat) (l : List α), List.Perm (heapPop less first l k) l := by
  intro k
  induction k with
  | zero => intro l; exact List.Perm.refl l
  | succ k ih =>
    intro l
    exact (ih _).trans ((siftDown_perm less k _ 0 k first (by omega)).trans
      (lswap_perm _ _ _))

theorem heapSortRange_perm (less : α → α → Bool) (l : List α) (a b : Nat) :
    List.Perm (heapSortRange less l a b) l := by
  unfold heapSortRange
  exact (heapPop_perm less a _ _).trans (heapBuild_perm less (b - a) a _ l)

theorem quickSortRange_perm (less : α → α → Bool) :
    ∀ (maxDepth : Nat) (l : List α) (a b : Nat),
    List.Perm (quickSortRange less l a b maxDepth) l := by
  intro maxDepth
  induction maxDepth using Nat.strong_induction_on with
  | _ maxDepth ih =>
    intro l a b
    rw [quickSortRange]
    split
    case isFalse =>
      split
      · exact insertionSortRange_perm less l a b (by omega)
      · exact List.Perm.refl l
    case isTrue hba =>
      split
      case isTrue => exact heapSortRange_perm less l a b
      case isFalse hmd =>
        dsimp only
        split
        · exact (ih _ (by omega) _ _ _).trans
            ((ih _ (by omega) _ _ _).trans (doPivot_perm less l a b))
        · exact (ih _ (by omega) _ _ _).trans
            ((ih _ (by omega) _ _ _).trans (doPivot_perm less l a b))

theorem goSort_perm (less : α → α → Bool) (l : List α) :
    List.Perm (goSort less l) l :=
  quickSortRange_perm less _ l 0 l.length

end SortPerm

/-! ## Soundness of a committed candidate -/

theorem makeIndexKeyPref_ne_nil (t i : Nat) : makeIndexKeyPref t i ≠ [] := by
  simp [makeIndexKeyPref]

theorem analyzeRanges_fields (v : indexInfo) (qvals : List ColumnID)
    (m : qvalueRangeMap) :
    (v.analyzeRanges qvals m).index = v.index ∧
      (v.analyzeRanges qvals m).desc = v.desc := by
  unfold indexInfo.analyzeRanges
  split
  · exact ⟨rfl, rfl⟩
  · exact ⟨rfl, rfl⟩

theorem candidate_sound (desc : TableDescriptor) (idx : IndexDescriptor)
    (prim : Bool) (qvals : List ColumnID) (m : qvalueRangeMap) (ρ : Row)
    (hm : mapHolds m ρ) (suffix : Key) :
    keyLe ((mkIndexInfo desc idx prim).analyzeRanges qvals m).makeStartKey
        (rowKey desc idx ρ ++ suffix) = true ∧
      keyLt (rowKey desc idx ρ ++ suffix)
        ((mkIndexInfo desc idx prim).analyzeRanges qvals m).makeEndKey = true := by
  have hrow : rowKey desc idx ρ ++ suffix =
      makeIndexKeyPref desc.id idx.id ++ (idx.columnIDs.map ρ ++ suffix) := by
    simp [rowKey, List.append_assoc]
  unfold indexInfo.analyzeRanges
  split
  case isTrue =>
    constructor
    · show keyLe (makeStartKeyLoop (makeIndexKeyPref desc.id idx.id) []) _ = true
      rw [hrow]
      exact keyLe_append _ _
    · show keyLt _ (endKeyFrom (makeIndexKeyPref desc.id idx.id) []) = true
      have : endKeyFrom (makeIndexKeyPref desc.id idx.id) [] =
          prefixEnd (makeIndexKeyPref desc.id idx.id) := rfl
      rw [hrow, this]
      exact keyLt_append_prefixEnd _ _ (makeIndexKeyPref_ne_nil _ _)
  case isFalse =>
    constructor
    · show keyLe (makeStartKeyLoop (makeIndexKeyPref desc.id idx.id)
          (makeStartInfo m idx.columnIDs)) _ = true
      rw [hrow]
      exact startKey_le_rowKey m ρ hm idx.columnIDs _ suffix
    · show keyLt _ (endKeyFrom (makeIndexKeyPref desc.id idx.id)
          (makeEndInfo m idx.columnIDs)) = true
      rw [hrow]
      exact rowKey_lt_endKey m ρ hm idx.columnIDs _ suffix
        (makeIndexKeyPref_ne_nil _ _)

theorem sorted_head_sound (desc : TableDescriptor) (qvals : List ColumnID)
    (m : qvalueRangeMap) (ρ : Row) (hm : mapHolds m ρ) (suffix : Key)
    (cands0 : List indexInfo)
    (hshape : ∀ c ∈ cands0, ∃ idx prim, c = mkIndexInfo desc idx prim)
    (best : indexInfo) (rest : List indexInfo)
    (hsorted : goSort indexInfoLess
      (cands0.map fun c => c.analyzeRanges qvals m) = best :: rest) :
    keyLe best.makeStartKey (rowKey desc best.index ρ ++ suffix) = true ∧
      keyLt (rowKey desc best.index ρ ++ suffix) best.makeEndKey = true := by
  have hperm := goSort_perm indexInfoLess
    (cands0.map fun c => c.analyzeRanges qvals m)
  rw [hsorted] at hperm
  have hmem : best ∈ cands0.map fun c => c.analyzeRanges qvals m :=
    hperm.subset (List.mem_cons_self _ _)
  obtain ⟨c0, hc0mem, hc0⟩ := List.mem_map.mp hmem
  obtain ⟨idx, prim, rfl⟩ := hshape c0 hc0mem
  subst hc0
  rw [(analyzeRanges_fields (mkIndexInfo desc idx prim) qvals m).1]
  exact candidate_sound desc idx prim qvals m ρ hm suffix

/-! ## Claim C1 -/

/-- C1: Soundness of the committed scan range.  For every filter expression,
every table metadata, every interpretation `ω` of the filter fragments the
analyzer does not understand, and every row satisfying the filter, the
committed scan interval `[startKey, endKey)` of `selectIndex` contains the
row's key in the committed index — for any physical key suffix (primary-key
columns of a non-unique secondary index, column/sentinel suffixes of the
primary index). -/
theorem selectIndex_sound (s : scanNode) (desc : TableDescriptor)
    (filter : Expr) (ω : Oracle) (ρ : Row) (suffix : Key)
    (hd : s.desc = some desc) (hf : s.filter = some filter)
    (hsat : filter.sat ω ρ = true) :
    ∃ idx : IndexDescriptor, (selectIndex s).index = some idx ∧
      keyLe (selectIndex s).startKey (rowKey desc idx ρ ++ suffix) = true ∧
      keyLt (rowKey desc idx ρ ++ suffix) (selectIndex s).endKey = true := by
  have hm : mapHolds (emptyRangeMap.analyzeExpr filter) ρ :=
    analyzeExpr_holds filter emptyRangeMap ρ ω (emptyRangeMap_holds ρ) hsat
  unfold selectIndex
  rw [hd, hf]
  dsimp only
  by_cases hsec : s.isSecondaryIndex = true
  · rw [if_pos hsec]
    cases hsorted : goSort indexInfoLess
        ([mkIndexInfo desc (s.index.getD default) false].map
          fun c => c.analyzeRanges s.qvals (emptyRangeMap.analyzeExpr filter)) with
    | nil =>
      exfalso
      have hperm := goSort_perm indexInfoLess
        ([mkIndexInfo desc (s.index.getD default) false].map
          fun c => c.analyzeRanges s.qvals (emptyRangeMap.analyzeExpr filter))
      rw [hsorted] at hperm
      simpa using hperm.length_eq
    | cons best rest =>
      dsimp only
      refine ⟨best.index, rfl, ?_⟩
      exact sorted_head_sound desc s.qvals _ ρ hm suffix _
        (by
          intro c hc
          simp only [List.mem_singleton] at hc
          exact ⟨s.index.getD default, false, hc⟩)
        best rest hsorted
  · rw [if_neg hsec]
    cases hsorted : goSort indexInfoLess
        ((mkIndexInfo desc desc.primaryIndex true ::
            desc.indexes.map fun idx => mkIndexInfo desc idx false).map
          fun c => c.analyzeRanges s.qvals (emptyRangeMap.analyzeExpr filter)) with
    | nil =>
      exfalso
      have hperm := goSort_perm indexInfoLess
        ((mkIndexInfo desc desc.primaryIndex true ::
            desc.indexes.map fun idx => mkIndexInfo desc idx false).map
          fun c => c.analyzeRanges s.qvals (emptyRangeMap.analyzeExpr filter))
      rw [hsorted] at hperm
      simpa using hperm.length_eq
    | cons best rest =>
      dsimp only
      refine ⟨best.index, rfl, ?_⟩
      exact sorted_head_sound desc s.qvals _ ρ hm suffix _
        (by
          intro c hc
          rcases List.mem_cons.mp hc with hc | hc
          · exact ⟨desc.primaryIndex, true, hc⟩
          · obtain ⟨i, _, rfl⟩ := List.mem_map.mp hc
            exact ⟨i, false, rfl⟩)
        best rest hsorted

/-! ## Claim C1 witness -/

theorem selectIndex_sound_witness :
    ∃ idx : IndexDescriptor, (selectIndex scanRange).index = some idx ∧
      keyLe (selectIndex scanRange).startKey
        (rowKey descOne idx (fun _ => 15) ++ []) = true ∧
      keyLt (rowKey descOne idx (fun _ => 15) ++ [])
        (selectIndex scanRange).endKey = true :=
  selectIndex_sound scanRange descOne filterRange (fun _ _ => false)
    (fun _ => 15) [] rfl rfl (by decide)

/-! ## Stability of the insertion-sort path

Go 1.4's `sort.Sort` runs plain insertion sort on inputs of at most 7
elements; on those inputs it is a stable sort.  The lemmas below prove the
insertion sort sorted and pair-stable with respect to a cost function. -/

section SortStable

variable {α : Type} [Inhabited α] (f : α → ℚ)

theorem bubbleInsert_sorted (s : List α)
    (hs : List.Pairwise (fun a b => f a ≤ f b) s) (x : α) :
    List.Pairwise (fun a b => f a ≤ f b)
      (bubbleInsert (fun a b => decide (f a < f b)) s x) := by
  induction s with
  | nil => simp [bubbleInsert]
  | cons y ys ih =>
    rw [List.pairwise_cons] at hs
    rw [bubbleInsert]
    split
    case isTrue h =>
      have hxy : f x < f y := by simpa using h
      rw [List.pairwise_cons]
      refine ⟨?_, List.pairwise_cons.mpr hs⟩
      intro b hb
      rcases List.mem_cons.mp hb with rfl | hb
      · exact le_of_lt hxy
      · exact le_of_lt (lt_of_lt_of_le hxy (hs.1 b hb))
    case isFalse h =>
      have hyx : f y ≤ f x := by simpa using h
      rw [List.pairwise_cons]
      refine ⟨?_, ih hs.2⟩
      intro b hb
      have hb' : b = x ∨ b ∈ ys := by
        simpa using
          (bubbleInsert_perm (fun a b => decide (f a < f b)) ys x).mem_iff.mp hb
      rcases hb' with rfl | hb'
      · exact hyx
      · exact hs.1 b hb'

theorem goInsertionSort_sorted_aux :
    ∀ (l acc : List α), List.Pairwise (fun a b => f a ≤ f b) acc →
    List.Pairwise (fun a b => f a ≤ f b)
      (List.foldl (fun a x => bubbleInsert (fun a b => decide (f a < f b)) a x)
        acc l)
  | [], acc, h => h
  | x :: xs, acc, h => by
    simp only [List.foldl_cons]
    exact goInsertionSort_sorted_aux xs _ (bubbleInsert_sorted f acc h x)

theorem goInsertionSort_sorted (l : List α) :
    List.Pairwise (fun a b => f a ≤ f b)
      (goInsertionSort (fun a b => decide (f a < f b)) l) :=
  goInsertionSort_sorted_aux f l [] (List.Pairwise.nil)

theorem bubbleInsert_sublist_self (less : α → α → Bool) :
    ∀ (s : List α) (x : α), s.Sublist (bubbleInsert less s x)
  | [], x => by simp [bubbleInsert]
  | y :: ys, x => by
    rw [bubbleInsert]
    split
    · exact List.sublist_cons_self x (y :: ys)
    · exact List.Sublist.cons₂ y (bubbleInsert_sublist_self less ys x)

theorem bubbleInsert_pair_sub (x : α) :
    ∀ (s : List α), List.Pairwise (fun a b => f a ≤ f b) s →
    ∀ (a : α), a ∈ s → f a ≤ f x →
    [a, x].Sublist (bubbleInsert (fun a b => decide (f a < f b)) s x)
  | [], _, a, ha, _ => by simp at ha
  | y :: ys, hs, a, ha, hax => by
    rw [List.pairwise_cons] at hs
    rw [bubbleInsert]
    split
    case isTrue h =>
      exfalso
      have hxy : f x < f y := by simpa using h
      rcases List.mem_cons.mp ha with rfl | ha
      · exact absurd hax (by exact not_le.mpr hxy)
      · exact absurd (le_trans (hs.1 a ha) hax) (not_le.mpr hxy)
    case isFalse h =>
      rcases List.mem_cons.mp ha with rfl | ha
      · refine List.Sublist.cons₂ a (List.singleton_sublist.mpr ?_)
        exact (bubbleInsert_perm (fun a b => decide (f a < f b)) ys x).mem_iff.mpr
          (by simp)
      · exact List.Sublist.cons y (bubbleInsert_pair_sub x ys hs.2 a ha hax)

theorem goInsertionSort_append_one (less : α → α → Bool) (l : List α) (x : α) :
    goInsertionSort less (l ++ [x]) =
      bubbleInsert less (goInsertionSort less l) x := by
  simp [goInsertionSort, List.foldl_append]

theorem goInsertionSort_pair (l : List α) (a b : α)
    (hab : [a, b].Sublist l) (hfab : f a ≤ f b) :
    [a, b].Sublist (goInsertionSort (fun a b => decide (f a < f b)) l) := by
  induction l using List.reverseRecOn with
  | nil => simp at hab
  | append_singleton l x ih =>
    rw [goInsertionSort_append_one]
    rcases List.sublist_append_iff.mp hab with ⟨s₁, s₂, hsplit, h₁, h₂⟩
    cases s₂ with
    | nil =>
      rw [List.append_nil] at hsplit
      subst hsplit
      exact (ih h₁).trans
        (bubbleInsert_sublist_self (fun a b => decide (f a < f b)) _ x)
    | cons c cs =>
      have hcs : cs = [] := by
        cases h₂ with
        | cons _ h => simp at h
        | cons₂ _ h => exact List.sublist_nil.mp h
      have hcx : c = x := by
        cases h₂ with
        | cons _ h => simp at h
        | cons₂ _ h => rfl
      rw [hcs, hcx] at hsplit
      have hs1 : s₁ = [a] ∧ b = x := by
        cases s₁ with
        | nil => simp at hsplit
        | cons u us =>
          cases us with
          | nil =>
            simp only [List.cons_append, List.nil_append] at hsplit
            injection hsplit with h1 htl
            injection htl with h2 _
            exact ⟨by rw [h1], h2⟩
          | cons v vs =>
            have := congrArg List.length hsplit
            simp at this
      obtain ⟨hs1a, hbx⟩ := hs1
      rw [hbx] at hfab ⊢
      rw [hs1a] at h₁
      have haMem : a ∈ goInsertionSort (fun a b => decide (f a < f b)) l :=
        (goInsertionSort_perm _ l).mem_iff.mpr
          (List.singleton_sublist.mp h₁)
      exact bubbleInsert_pair_sub f x _ (goInsertionSort_sorted f l) a haMem hfab

end SortStable

/-- On a list of at most 7 elements, Go's `sort.Sort` is exactly the
insertion sort. -/
theorem goSort_le7 {α : Type} [Inhabited α] (less : α → α → Bool) (l : List α)
    (h : l.length ≤ 7) : goSort less l = goInsertionSort less l := by
  unfold goSort
  rw [quickSortRange]
  rw [if_neg (by omega)]
  by_cases h1 : l.length - 0 > 1
  · rw [if_pos h1]
    unfold insertionSortRange
    simp
  · rw [if_neg h1]
    cases l with
    | nil => rfl
    | cons x xs =>
      cases xs with
      | nil => rfl
      | cons y ys => simp at h1

theorem goSort_singleton {α : Type} [Inhabited α] (less : α → α → Bool)
    (x : α) : goSort less [x] = [x] := by
  rw [goSort_le7 less [x] (by simp)]
  rfl

/-! ## Claim C2 -/

/-- Evaluating a secondary candidate of `descSeven` under `b = 5`. -/
theorem analyzeSeven_sec (i : Nat) :
    (mkIndexInfo descSeven (idxOnB i) false).analyzeRanges [1]
      (emptyRangeMap.analyzeExpr filterEqB) = secInfoSeven i := by
  norm_num [indexInfo.analyzeRanges, mkIndexInfo,
    indexInfo.isCoveringIndex, idxOnB, descSeven, filterEqB,
    qvalueRangeMap.analyzeExpr, qvalueRangeMap.analyzeComparisonExpr,
    qvalueRangeMap.applyBounds, asQval, isConst, evalExpr, emptyRangeMap,
    makeStartInfo, makeEndInfo, qvalueInfo.intersect, emptyRange, secInfoSeven]

/-- Evaluating the primary candidate of `descSeven` under `b = 5`. -/
theorem analyzeSeven_prim :
    (mkIndexInfo descSeven descSeven.primaryIndex true).analyzeRanges [1]
      (emptyRangeMap.analyzeExpr filterEqB) = primInfoSeven := by
  norm_num [indexInfo.analyzeRanges, mkIndexInfo,
    indexInfo.isCoveringIndex, idxOnB, descSeven, filterEqB,
    qvalueRangeMap.analyzeExpr, qvalueRangeMap.analyzeComparisonExpr,
    qvalueRangeMap.applyBounds, asQval, isConst, evalExpr, emptyRangeMap,
    makeStartInfo, makeEndInfo, qvalueInfo.intersect, emptyRange, primInfoSeven]

/-- The seven secondary candidates compare equal (neither is less). -/
theorem lessSeven_sec_sec (i j : Nat) :
    indexInfoLess (secInfoSeven i) (secInfoSeven j) = false := by
  norm_num [indexInfoLess, secInfoSeven]

/-- A secondary candidate costs less than the primary candidate. -/
theorem lessSeven_sec_prim (i : Nat) :
    indexInfoLess (secInfoSeven i) primInfoSeven = true := by
  norm_num [indexInfoLess, secInfoSeven, primInfoSeven]

/-- The primary candidate does not cost less than a secondary one. -/
theorem lessSeven_prim_sec (i : Nat) :
    indexInfoLess primInfoSeven (secInfoSeven i) = false := by
  norm_num [indexInfoLess, secInfoSeven, primInfoSeven]

/-- The primary candidate is not less than itself. -/
theorem lessSeven_prim_prim :
    indexInfoLess primInfoSeven primInfoSeven = false := by
  norm_num [indexInfoLess, primInfoSeven]

set_option maxHeartbeats 4000000 in
set_option maxRecDepth 4000 in
/-- Go 1.4 `sort.Sort` on eight elements, the first strictly greater than
the seven others which are pairwise tied: the last tied element is moved to
the front, ahead of the earlier-enumerated tied elements. -/
theorem goSort_eight_pattern [Inhabited α] (less : α → α → Bool)
    (K c2 c3 c4 c5 c6 c7 c8 : α)
    (hKK : less K K = false)
    (hKc2 : less K c2 = false)
    (hKc3 : less K c3 = false)
    (hKc4 : less K c4 = false)
    (hKc5 : less K c5 = false)
    (hKc6 : less K c6 = false)
    (hKc7 : less K c7 = false)
    (hKc8 : less K c8 = false)
    (hc2K : less c2 K = true)
    (hc2c2 : less c2 c2 = false)
    (hc2c3 : less c2 c3 = false)
    (hc2c4 : less c2 c4 = false)
    (hc2c5 : less c2 c5 = false)
    (hc2c6 : less c2 c6 = false)
    (hc2c7 : less c2 c7 = false)
    (hc2c8 : less c2 c8 = false)
    (hc3K : less c3 K = true)
    (hc3c2 : less c3 c2 = false)
    (hc3c3 : less c3 c3 = false)
    (hc3c4 : less c3 c4 = false)
    (hc3c5 : less c3 c5 = false)
    (hc3c6 : less c3 c6 = false)
    (hc3c7 : less c3 c7 = false)
    (hc3c8 : less c3 c8 = false)
    (hc4K : less c4 K = true)
    (hc4c2 : less c4 c2 = false)
    (hc4c3 : less c4 c3 = false)
    (hc4c4 : less c4 c4 = false)
    (hc4c5 : less c4 c5 = false)
    (hc4c6 : less c4 c6 = false)
    (hc4c7 : less c4 c7 = false)
    (hc4c8 : less c4 c8 = false)
    (hc5K : less c5 K = true)
    (hc5c2 : less c5 c2 = false)
    (hc5c3 : less c5 c3 = false)
    (hc5c4 : less c5 c4 = false)
    (hc5c5 : less c5 c5 = false)
    (hc5c6 : less c5 c6 = false)
    (hc5c7 : less c5 c7 = false)
    (hc5c8 : less c5 c8 = false)
    (hc6K : less c6 K = true)
    (hc6c2 : less c6 c2 = false)
    (hc6c3 : less c6 c3 = false)
    (hc6c4 : less c6 c4 = false)
    (hc6c5 : less c6 c5 = false)
    (hc6c6 : less c6 c6 = false)
    (hc6c7 : less c6 c7 = false)
    (hc6c8 : less c6 c8 = false)
    (hc7K : less c7 K = true)
    (hc7c2 : less c7 c2 = false)
    (hc7c3 : less c7 c3 = false)
    (hc7c4 : less c7 c4 = false)
    (hc7c5 : less c7 c5 = false)
    (hc7c6 : less c7 c6 = false)
    (hc7c7 : less c7 c7 = false)
    (hc7c8 : less c7 c8 = false)
    (hc8K : less c8 K = true)
    (hc8c2 : less c8 c2 = false)
    (hc8c3 : less c8 c3 = false)
    (hc8c4 : less c8 c4 = false)
    (hc8c5 : less c8 c5 = false)
    (hc8c6 : less c8 c6 = false)
    (hc8c7 : less c8 c7 = false)
    (hc8c8 : less c8 c8 = false) :
    goSort less [K, c2, c3, c4, c5, c6, c7, c8]
      = [c8, c2, c3, c4, c5, c6, c7, K] := by
  simp [goSort, depthLoop, quickSortRange, doPivot, doPivotOuter,
    doPivotLoop1, doPivotLoop2, insertionSortRange, goInsertionSort,
    bubbleInsert, medianOfThree, swapRange, lget, lswap, heapSortRange,
    heapBuild, heapPop, siftDown, List.set, List.foldl,
    List.take, List.drop, List.getD, List.append, List.getElem_cons_zero,
    List.getElem_cons_succ, List.getElem?_cons_zero, List.getElem?_cons_succ,
    hKK, hKc2, hKc3, hKc4, hKc5, hKc6, hKc7, hKc8, hc2K, hc2c2, hc2c3, hc2c4, hc2c5, hc2c6, hc2c7, hc2c8, hc3K, hc3c2, hc3c3, hc3c4, hc3c5, hc3c6, hc3c7, hc3c8, hc4K, hc4c2, hc4c3, hc4c4, hc4c5, hc4c6, hc4c7, hc4c8, hc5K, hc5c2, hc5c3, hc5c4, hc5c5, hc5c6, hc5c7, hc5c8, hc6K, hc6c2, hc6c3, hc6c4, hc6c5, hc6c6, hc6c7, hc6c8, hc7K, hc7c2, hc7c3, hc7c4, hc7c5, hc7c6, hc7c7, hc7c8, hc8K, hc8c2, hc8c3, hc8c4, hc8c5, hc8c6, hc8c7, hc8c8]

/-- C2 counterexample: the sort of `selectIndex` is Go's `sort.Sort`, which
is not stable.  On a table with seven secondary indexes on the same column
and the filter `b = 5`, the seven secondary candidates all get cost 1 (the
primary candidate gets cost 2000), yet the committed index is the
seventh-enumerated secondary index (id 8), not the earliest-enumerated
equal-cost candidate (id 2) — refuting the claimed stable tie-break. -/
theorem sortByCost_unstable_at8 :
    ((mkIndexInfo descSeven (idxOnB 2) false).analyzeRanges [1]
        (emptyRangeMap.analyzeExpr filterEqB)).cost = 1 ∧
    ((mkIndexInfo descSeven (idxOnB 8) false).analyzeRanges [1]
        (emptyRangeMap.analyzeExpr filterEqB)).cost = 1 ∧
    ((mkIndexInfo descSeven descSeven.primaryIndex true).analyzeRanges [1]
        (emptyRangeMap.analyzeExpr filterEqB)).cost = 2000 ∧
    (selectIndex scanSeven).index = some (idxOnB 8) ∧
    idxOnB 8 ≠ idxOnB 2 := by
  refine ⟨?_, ?_, ?_, ?_, by decide⟩
  · rw [analyzeSeven_sec]; rfl
  · rw [analyzeSeven_sec]; rfl
  · rw [analyzeSeven_prim]; rfl
  · have hsort := goSort_eight_pattern indexInfoLess primInfoSeven
      (secInfoSeven 2) (secInfoSeven 3) (secInfoSeven 4) (secInfoSeven 5)
      (secInfoSeven 6) (secInfoSeven 7) (secInfoSeven 8)
      lessSeven_prim_prim
      (lessSeven_prim_sec 2)
      (lessSeven_prim_sec 3)
      (lessSeven_prim_sec 4)
      (lessSeven_prim_sec 5)
      (lessSeven_prim_sec 6)
      (lessSeven_prim_sec 7)
      (lessSeven_prim_sec 8)
      (lessSeven_sec_prim 2)
      (lessSeven_sec_sec 2 2)
      (lessSeven_sec_sec 2 3)
      (lessSeven_sec_sec 2 4)
      (lessSeven_sec_sec 2 5)
      (lessSeven_sec_sec 2 6)
      (lessSeven_sec_sec 2 7)
      (lessSeven_sec_sec 2 8)
      (lessSeven_sec_prim 3)
      (lessSeven_sec_sec 3 2)
      (lessSeven_sec_sec 3 3)
      (lessSeven_sec_sec 3 4)
      (lessSeven_sec_sec 3 5)
      (lessSeven_sec_sec 3 6)
      (lessSeven_sec_sec 3 7)
      (lessSeven_sec_sec 3 8)
      (lessSeven_sec_prim 4)
      (lessSeven_sec_sec 4 2)
      (lessSeven_sec_sec 4 3)
      (lessSeven_sec_sec 4 4)
      (lessSeven_sec_sec 4 5)
      (lessSeven_sec_sec 4 6)
      (lessSeven_sec_sec 4 7)
      (lessSeven_sec_sec 4 8)
      (lessSeven_sec_prim 5)
      (lessSeven_sec_sec 5 2)
      (lessSeven_sec_sec 5 3)
      (lessSeven_sec_sec 5 4)
      (lessSeven_sec_sec 5 5)
      (lessSeven_sec_sec 5 6)
      (lessSeven_sec_sec 5 7)
      (lessSeven_sec_sec 5 8)
      (lessSeven_sec_prim 6)
      (lessSeven_sec_sec 6 2)
      (lessSeven_sec_sec 6 3)
      (lessSeven_sec_sec 6 4)
      (lessSeven_sec_sec 6 5)
      (lessSeven_sec_sec 6 6)
      (lessSeven_sec_sec 6 7)
      (lessSeven_sec_sec 6 8)
      (lessSeven_sec_prim 7)
      (lessSeven_sec_sec 7 2)
      (lessSeven_sec_sec 7 3)
      (lessSeven_sec_sec 7 4)
      (lessSeven_sec_sec 7 5)
      (lessSeven_sec_sec 7 6)
      (lessSeven_sec_sec 7 7)
      (lessSeven_sec_sec 7 8)
      (lessSeven_sec_prim 8)
      (lessSeven_sec_sec 8 2)
      (lessSeven_sec_sec 8 3)
      (lessSeven_sec_sec 8 4)
      (lessSeven_sec_sec 8 5)
      (lessSeven_sec_sec 8 6)
      (lessSeven_sec_sec 8 7)
      (lessSeven_sec_sec 8 8)
    have hidx : descSeven.indexes =
        [idxOnB 2, idxOnB 3, idxOnB 4, idxOnB 5, idxOnB 6, idxOnB 7, idxOnB 8] := rfl
    unfold selectIndex
    dsimp only [scanSeven]
    rw [hidx]
    simp only [Bool.false_eq_true, if_false, List.map_cons, List.map_nil,
      analyzeSeven_sec, analyzeSeven_prim]
    rw [hsort]
    rfl

/-- C2 (amended): `selectIndex` sorts the evaluated candidates ascending by
cost with Go 1.4's `sort.Sort`, which is unstable in general; only for at
most 7 candidates (a table with at most 6 secondary indexes) does it
degenerate to insertion sort, which sorts ascending by cost and preserves
the enumeration order of equal-cost candidates, so that among equal-cost
candidates the earliest-enumerated one is ranked first. -/
theorem sortByCost_stable_upTo7 (l : List indexInfo) (h : l.length ≤ 7) :
    List.Pairwise (fun a b : indexInfo => a.cost ≤ b.cost)
      (goSort indexInfoLess l) ∧
    (∀ a b : indexInfo, [a, b].Sublist l → a.cost ≤ b.cost →
      [a, b].Sublist (goSort indexInfoLess l)) := by
  rw [goSort_le7 indexInfoLess l h]
  constructor
  · exact goInsertionSort_sorted indexInfo.cost l
  · intro a b hab hcost
    exact goInsertionSort_pair indexInfo.cost l a b hab hcost

/-- Witness for C2 (amended), on the first two secondary candidates of the
seven-index table (equal cost 1). -/
theorem sortByCost_stable_upTo7_witness :
    List.Pairwise (fun a b : indexInfo => a.cost ≤ b.cost)
      (goSort indexInfoLess
        [(mkIndexInfo descSeven (idxOnB 2) false).analyzeRanges [1]
            (emptyRangeMap.analyzeExpr filterEqB),
          (mkIndexInfo descSeven (idxOnB 3) false).analyzeRanges [1]
            (emptyRangeMap.analyzeExpr filterEqB)]) ∧
    (∀ a b : indexInfo,
      [a, b].Sublist
        [(mkIndexInfo descSeven (idxOnB 2) false).analyzeRanges [1]
            (emptyRangeMap.analyzeExpr filterEqB),
          (mkIndexInfo descSeven (idxOnB 3) false).analyzeRanges [1]
            (emptyRangeMap.analyzeExpr filterEqB)] →
      a.cost ≤ b.cost →
      [a, b].Sublist
        (goSort indexInfoLess
          [(mkIndexInfo descSeven (idxOnB 2) false).analyzeRanges [1]
              (emptyRangeMap.analyzeExpr filterEqB),
            (mkIndexInfo descSeven (idxOnB 3) false).analyzeRanges [1]
              (emptyRangeMap.analyzeExpr filterEqB)])) :=
  sortByCost_stable_upTo7 _ (by simp)


/-! ## Claim C3 -/

/-- C3 counterexample: under the filter `a < 20` the column `a` has no lower
bound, yet it does contribute an element to the start-list: the column has a
range-map entry (carrying only an upper bound), and `makeStartInfo` appends
the entry's start info — datum-less, with the zero operator `EQ` — before
deciding to stop.  The walk stops without appending only when the column has
no range-map entry at all. -/
theorem startInfo_nil_datum_appended :
    (emptyRangeMap.analyzeExpr filterLt20) 0
        = some ⟨⟨none, .eq⟩, ⟨some 20, .lt⟩⟩ ∧
    makeStartInfo (emptyRangeMap.analyzeExpr filterLt20) [0]
        = [⟨none, .eq⟩] := by
  exact ⟨rfl, rfl⟩

/-- C3 (amended): `makeStartInfo` walks the index columns in declared order
and appends the range-map entry's start info — whatever it is, including a
datum-less one for a column with only an upper bound — for each consumed
column; it consumes columns while they have an entry with an inclusive
(`GE`) start operator, plus the one entry-bearing column with any other
start operator that it stops on, and it stops appending nothing for a
column exactly when that column has no range-map entry; `makeEndInfo`
applies the symmetric rule with `LE` to the end infos. -/
theorem makeInfo_stop_rule (m : qvalueRangeMap) (cols : List ColumnID)
    (c : ColumnID) (rest : List ColumnID) (r : qvalueRange) :
    (makeStartInfo m cols
        = (cols.take (startStop m cols)).map
            (fun id => ((m id).getD emptyRange).start)) ∧
    (makeEndInfo m cols
        = (cols.take (endStop m cols)).map
            (fun id => ((m id).getD emptyRange).end_)) ∧
    (m c = none → makeStartInfo m (c :: rest) = [] ∧
        makeEndInfo m (c :: rest) = []) ∧
    (m c = some r → r.start.op ≠ .ge → makeStartInfo m (c :: rest) = [r.start]) ∧
    (m c = some r → r.end_.op ≠ .le → makeEndInfo m (c :: rest) = [r.end_]) := by
  refine ⟨?_, ?_, ?_, ?_, ?_⟩
  · induction cols with
    | nil => rfl
    | cons c0 rest0 ih =>
      simp only [makeStartInfo, startStop]
      cases hm : m c0 with
      | none => rfl
      | some r0 =>
        by_cases hop : r0.start.op = .ge
        · simp only [hm, hop, if_pos, ih]
          rw [Nat.add_comm, List.take_succ_cons, List.map_cons, hm]
          rfl
        · simp [hop, hm]
  · induction cols with
    | nil => rfl
    | cons c0 rest0 ih =>
      simp only [makeEndInfo, endStop]
      cases hm : m c0 with
      | none => rfl
      | some r0 =>
        by_cases hop : r0.end_.op = .le
        · simp only [hm, hop, if_pos, ih]
          rw [Nat.add_comm, List.take_succ_cons, List.map_cons, hm]
          rfl
        · simp [hop, hm]
  · intro hm
    constructor
    · simp [makeStartInfo, hm]
    · simp [makeEndInfo, hm]
  · intro hm hop
    simp [makeStartInfo, hm, hop]
  · intro hm hop
    simp [makeEndInfo, hm, hop]

/-- Witness for C3 (amended): under `a < 20` the entry of column `a` has the
non-`GE` start operator `EQ`, so the start-list over `[a, b]` is exactly the
appended datum-less start info of `a`. -/
theorem makeInfo_stop_rule_witness :
    (emptyRangeMap.analyzeExpr filterLt20) 0
        = some ⟨⟨none, .eq⟩, ⟨some 20, .lt⟩⟩ ∧
    makeStartInfo (emptyRangeMap.analyzeExpr filterLt20) [0, 1]
        = [⟨none, .eq⟩] :=
  ⟨rfl,
    (makeInfo_stop_rule (emptyRangeMap.analyzeExpr filterLt20) [] 0 [1]
          ⟨⟨none, .eq⟩, ⟨some 20, .lt⟩⟩).2.2.2.1 rfl (by decide)⟩

/-! ## Claim C4 -/

/-- C4: for a covering candidate the cost is the base cost — one plus table
columns minus primary-key columns for the primary index, the index
key-column count for a secondary — times `1000` when both extracted bound
lists are empty, and otherwise times twice the index key-column count
divided by the total number of extracted bounds. -/
theorem analyzeRanges_cost (v : indexInfo) (qvals : List ColumnID)
    (m : qvalueRangeMap) (h : v.isCoveringIndex qvals = true) :
    (v.analyzeRanges qvals m).cost =
      (if v.isPrimary then
          1 + (v.desc.columns.length : ℚ) -
            (v.desc.primaryIndex.columnIDs.length : ℚ)
        else (v.index.columnIDs.length : ℚ)) *
      (if (makeStartInfo m v.index.columnIDs).length = 0 ∧
          (makeEndInfo m v.index.columnIDs).length = 0 then 1000
        else (2 * (v.index.columnIDs.length : ℚ)) /
          (((makeStartInfo m v.index.columnIDs).length : ℚ) +
            ((makeEndInfo m v.index.columnIDs).length : ℚ))) := by
  unfold indexInfo.analyzeRanges
  rw [h]
  simp only [Bool.not_true, Bool.false_eq_true, if_false]
  split_ifs <;> ring_nf

/-- Witness for C4, on the covering primary candidate of the one-column
table under `a > 10 AND a < 20`: one start bound and one end bound. -/
theorem analyzeRanges_cost_witness :
    (mkIndexInfo descOne descOne.primaryIndex true).isCoveringIndex [0]
        = true ∧
    ((mkIndexInfo descOne descOne.primaryIndex true).analyzeRanges [0]
        (emptyRangeMap.analyzeExpr filterRange)).cost =
      (if (mkIndexInfo descOne descOne.primaryIndex true).isPrimary then
          1 + ((mkIndexInfo descOne descOne.primaryIndex
              true).desc.columns.length : ℚ) -
            ((mkIndexInfo descOne descOne.primaryIndex
              true).desc.primaryIndex.columnIDs.length : ℚ)
        else ((mkIndexInfo descOne descOne.primaryIndex
            true).index.columnIDs.length : ℚ)) *
      (if (makeStartInfo (emptyRangeMap.analyzeExpr filterRange)
            (mkIndexInfo descOne descOne.primaryIndex
              true).index.columnIDs).length = 0 ∧
          (makeEndInfo (emptyRangeMap.analyzeExpr filterRange)
            (mkIndexInfo descOne descOne.primaryIndex
              true).index.columnIDs).length = 0 then 1000
        else (2 * ((mkIndexInfo descOne descOne.primaryIndex
            true).index.columnIDs.length : ℚ)) /
          (((makeStartInfo (emptyRangeMap.analyzeExpr filterRange)
              (mkIndexInfo descOne descOne.primaryIndex
                true).index.columnIDs).length : ℚ) +
            ((makeEndInfo (emptyRangeMap.analyzeExpr filterRange)
              (mkIndexInfo descOne descOne.primaryIndex
                true).index.columnIDs).length : ℚ))) :=
  ⟨by decide,
    analyzeRanges_cost (mkIndexInfo descOne descOne.primaryIndex true) [0]
      (emptyRangeMap.analyzeExpr filterRange) (by decide)⟩

/-! ## Claim C5 -/

/-- C5: for the filter `a > 10 AND a < 20` on the primary-key column of a
one-column table, the committed start key is the index key prefix plus the
encoding of `10`, advanced to its immediate successor (the strict `>` bound
excludes the exact prefix match), and the committed end key is the index key
prefix plus the encoding of `20`, with no prefix-successor applied (the
strict `<` bound is already exclusive). -/
theorem rangeScanKeys :
    (selectIndex scanRange).startKey
        = keyNext (encodeTableKey
            (makeIndexKeyPref descOne.id descOne.primaryIndex.id) 10) ∧
    (selectIndex scanRange).endKey
        = encodeTableKey
            (makeIndexKeyPref descOne.id descOne.primaryIndex.id) 20 := by
  unfold selectIndex
  dsimp only [scanRange]
  have hidx : descOne.indexes = [] := rfl
  rw [hidx]
  simp only [Bool.false_eq_true, if_false, List.map_cons, List.map_nil]
  rw [goSort_singleton]
  exact ⟨rfl, rfl⟩


/-! ## Claim C6 -/

/-- C6: analyzing `OR(L, R)` (into a fresh map) analyzes the two sides into
separate tables and merges: a column absent from either side's table is
absent from the result, while a column present in both gets the union of the
two lower bounds as lower bound and the union of the two upper bounds as
upper bound — a bound union being absent unless both operands are present —
the column being dropped when both merged bounds come out absent. -/
theorem orMerge_union_rule (L R : Expr) (c : ColumnID) :
    ((emptyRangeMap.analyzeExpr L) c = none ∨
        (emptyRangeMap.analyzeExpr R) c = none →
      (emptyRangeMap.analyzeExpr (.or L R)) c = none) ∧
    (∀ lr rr, (emptyRangeMap.analyzeExpr L) c = some lr →
        (emptyRangeMap.analyzeExpr R) c = some rr →
      (emptyRangeMap.analyzeExpr (.or L R)) c =
        (if (boundUnionOpt lr.start rr.start true).datum ≠ none ∨
            (boundUnionOpt lr.end_ rr.end_ false).datum ≠ none then
          some ⟨boundUnionOpt lr.start rr.start true,
            boundUnionOpt lr.end_ rr.end_ false⟩
        else none)) := by
  constructor
  · intro h
    show orMerge emptyRangeMap (emptyRangeMap.analyzeExpr L)
        (emptyRangeMap.analyzeExpr R) c = none
    unfold orMerge
    rcases h with h | h
    · rw [h]
      cases hr2 : (emptyRangeMap.analyzeExpr R) c <;> rfl
    · rw [h]
      cases hl2 : (emptyRangeMap.analyzeExpr L) c <;> rfl
  · intro lr rr hl hr
    show orMerge emptyRangeMap (emptyRangeMap.analyzeExpr L)
        (emptyRangeMap.analyzeExpr R) c = _
    unfold orMerge
    rw [hl, hr]
    simp only [boundUnionOpt]
    rfl

/-- Witness for C6: `a < 20 OR a > 5` — the column is present in both
tables, but each side leaves one bound absent, so both merged bounds are
absent and the column is dropped from the result. -/
theorem orMerge_union_rule_witness :
    (emptyRangeMap.analyzeExpr filterLt20) 0
        = some ⟨⟨none, .eq⟩, ⟨some 20, .lt⟩⟩ ∧
    (emptyRangeMap.analyzeExpr (.cmp .gt (.qval 0) (.constE (some 5)))) 0
        = some ⟨⟨some 5, .gt⟩, ⟨none, .eq⟩⟩ ∧
    (emptyRangeMap.analyzeExpr
        (.or filterLt20 (.cmp .gt (.qval 0) (.constE (some 5))))) 0 = none :=
  ⟨rfl, rfl,
    ((orMerge_union_rule filterLt20
          (.cmp .gt (.qval 0) (.constE (some 5))) 0).2
        ⟨⟨none, .eq⟩, ⟨some 20, .lt⟩⟩ ⟨⟨some 5, .gt⟩, ⟨none, .eq⟩⟩
        rfl rfl).trans (by decide)⟩

/-! ## Claim C7 -/

/-- C7: for an existing constraint `q` with a present value and a valid
(conforming-operator, present-value) candidate `n`, `intersect` never widens
the admitted set and `union` never narrows it, and on equal values
`intersect` prefers the strict operator while `union` prefers the inclusive
one. -/
theorem intersect_union_monotone (q n : qvalueInfo) (x dq dn : Datum)
    (hqd : q.datum = some dq) (hnd : n.datum = some dn) :
    ((n.op = .ge ∨ n.op = .gt) →
      (q.intersect n true).startHolds x = true → q.startHolds x = true) ∧
    ((n.op = .le ∨ n.op = .lt) →
      (q.intersect n false).endHolds x = true → q.endHolds x = true) ∧
    ((n.op = .ge ∨ n.op = .gt) → q.startHolds x = true →
      (q.union n true).startHolds x = true) ∧
    ((n.op = .le ∨ n.op = .lt) → q.endHolds x = true →
      (q.union n false).endHolds x = true) ∧
    (dn = dq →
      (n.op = .gt → (q.intersect n true).op = .gt) ∧
      (n.op = .lt → (q.intersect n false).op = .lt) ∧
      (n.op = .ge → (q.union n true).op = .ge) ∧
      (n.op = .le → (q.union n false).op = .le)) := by
  refine ⟨?_, ?_, ?_, ?_, ?_⟩
  · intro hop h
    unfold qvalueInfo.intersect at h
    rw [hqd, hnd] at h
    dsimp only at h
    rcases Nat.lt_trichotomy dn dq with hlt | heq | hgt
    · have h1 : cmpDatum dn dq = -1 := by simp [cmpDatum, hlt]
      rw [h1] at h
      norm_num at h
      exact h
    · subst heq
      have h1 : cmpDatum dn dn = 0 := by simp [cmpDatum]
      rw [h1] at h
      norm_num at h
      rcases hop with hge | hgt2
      · have hno : ¬(n.op = .gt ∨ n.op = .lt) := by simp [hge]
        rw [if_neg hno] at h
        exact h
      · rw [if_pos (Or.inl hgt2)] at h
        have hdx : dn < x := by
          simpa [qvalueInfo.startHolds, hqd, hgt2] using h
        exact startHolds_of_lt hqd hdx
    · have h1 : cmpDatum dn dq = 1 := by
        simp [cmpDatum, hgt, Nat.lt_asymm hgt]
      rw [h1] at h
      norm_num at h
      have hdx : dn ≤ x := startHolds_val hnd h
      exact startHolds_of_lt hqd (lt_of_lt_of_le hgt hdx)
  · intro hop h
    unfold qvalueInfo.intersect at h
    rw [hqd, hnd] at h
    dsimp only at h
    rcases Nat.lt_trichotomy dn dq with hlt | heq | hgt
    · have h1 : cmpDatum dn dq = -1 := by simp [cmpDatum, hlt]
      rw [h1] at h
      norm_num at h
      have hdx : x ≤ dn := endHolds_val hnd h
      exact endHolds_of_lt hqd (lt_of_le_of_lt hdx hlt)
    · subst heq
      have h1 : cmpDatum dn dn = 0 := by simp [cmpDatum]
      rw [h1] at h
      norm_num at h
      rcases hop with hle | hlt2
      · have hno : ¬(n.op = .gt ∨ n.op = .lt) := by simp [hle]
        rw [if_neg hno] at h
        exact h
      · rw [if_pos (Or.inr hlt2)] at h
        have hdx : x < dn := by
          simpa [qvalueInfo.endHolds, hqd, hlt2] using h
        exact endHolds_of_lt hqd hdx
    · have h1 : cmpDatum dn dq = 1 := by
        simp [cmpDatum, hgt, Nat.lt_asymm hgt]
      rw [h1] at h
      norm_num at h
      exact h
  · intro hop h
    exact union_startHolds q n x dq dn hqd hnd hop (Or.inl h)
  · intro hop h
    exact union_endHolds q n x dq dn hqd hnd hop (Or.inl h)
  · intro heq
    subst heq
    refine ⟨?_, ?_, ?_, ?_⟩
    · intro hgt2
      unfold qvalueInfo.intersect
      rw [hqd, hnd]
      dsimp only
      have h1 : cmpDatum dn dn = 0 := by simp [cmpDatum]
      rw [h1]
      norm_num
      rw [if_pos (Or.inl hgt2)]
      exact hgt2
    · intro hlt2
      unfold qvalueInfo.intersect
      rw [hqd, hnd]
      dsimp only
      have h1 : cmpDatum dn dn = 0 := by simp [cmpDatum]
      rw [h1]
      norm_num
      rw [if_pos (Or.inr hlt2)]
      exact hlt2
    · intro hge
      unfold qvalueInfo.union
      rw [hqd, hnd]
      dsimp only
      have h1 : cmpDatum dn dn = 0 := by simp [cmpDatum]
      rw [h1]
      norm_num
      rw [if_pos (Or.inl hge)]
      exact hge
    · intro hle
      unfold qvalueInfo.union
      rw [hqd, hnd]
      dsimp only
      have h1 : cmpDatum dn dn = 0 := by simp [cmpDatum]
      rw [h1]
      norm_num
      rw [if_pos (Or.inr hle)]
      exact hle


/-- Witness for C7, on `q = (≥ 5)`, `n = (> 5)` and the point `x = 7`. -/
theorem intersect_union_monotone_witness :
    (⟨some 5, .ge⟩ : qvalueInfo).datum = some 5 ∧ (⟨some 5, .gt⟩ : qvalueInfo).datum = some 5 ∧
    ((((⟨some 5, .gt⟩ : qvalueInfo).op = .ge ∨ (⟨some 5, .gt⟩ : qvalueInfo).op = .gt) →
      ((⟨some 5, .ge⟩ : qvalueInfo).intersect (⟨some 5, .gt⟩ : qvalueInfo) true).startHolds 7 = true →
      (⟨some 5, .ge⟩ : qvalueInfo).startHolds 7 = true) ∧
    (((⟨some 5, .gt⟩ : qvalueInfo).op = .le ∨ (⟨some 5, .gt⟩ : qvalueInfo).op = .lt) →
      ((⟨some 5, .ge⟩ : qvalueInfo).intersect (⟨some 5, .gt⟩ : qvalueInfo) false).endHolds 7 = true →
      (⟨some 5, .ge⟩ : qvalueInfo).endHolds 7 = true) ∧
    (((⟨some 5, .gt⟩ : qvalueInfo).op = .ge ∨ (⟨some 5, .gt⟩ : qvalueInfo).op = .gt) → (⟨some 5, .ge⟩ : qvalueInfo).startHolds 7 = true →
      ((⟨some 5, .ge⟩ : qvalueInfo).union (⟨some 5, .gt⟩ : qvalueInfo) true).startHolds 7 = true) ∧
    (((⟨some 5, .gt⟩ : qvalueInfo).op = .le ∨ (⟨some 5, .gt⟩ : qvalueInfo).op = .lt) → (⟨some 5, .ge⟩ : qvalueInfo).endHolds 7 = true →
      ((⟨some 5, .ge⟩ : qvalueInfo).union (⟨some 5, .gt⟩ : qvalueInfo) false).endHolds 7 = true) ∧
    ((5 : Datum) = 5 →
      ((⟨some 5, .gt⟩ : qvalueInfo).op = .gt → ((⟨some 5, .ge⟩ : qvalueInfo).intersect (⟨some 5, .gt⟩ : qvalueInfo) true).op = .gt) ∧
      ((⟨some 5, .gt⟩ : qvalueInfo).op = .lt → ((⟨some 5, .ge⟩ : qvalueInfo).intersect (⟨some 5, .gt⟩ : qvalueInfo) false).op = .lt) ∧
      ((⟨some 5, .gt⟩ : qvalueInfo).op = .ge → ((⟨some 5, .ge⟩ : qvalueInfo).union (⟨some 5, .gt⟩ : qvalueInfo) true).op = .ge) ∧
      ((⟨some 5, .gt⟩ : qvalueInfo).op = .le → ((⟨some 5, .ge⟩ : qvalueInfo).union (⟨some 5, .gt⟩ : qvalueInfo) false).op = .le))) :=
  ⟨rfl, rfl, intersect_union_monotone (⟨some 5, .ge⟩ : qvalueInfo) (⟨some 5, .gt⟩ : qvalueInfo) 7 5 5 rfl rfl⟩

/-! ## Claim C8 -/

/-- `analyzeRanges` on a non-covering candidate: only the cost changes, to
`math.MaxFloat64`; no bounds are extracted. -/
theorem analyzeRanges_noncovering (v : indexInfo) (qvals : List ColumnID)
    (m : qvalueRangeMap) (hv : v.isCoveringIndex qvals = false) :
    v.analyzeRanges qvals m = { v with cost := maxFloat64 } := by
  unfold indexInfo.analyzeRanges
  rw [hv]
  rfl

/-- A covering candidate of bounded width costs strictly less than
`math.MaxFloat64`. -/
theorem analyzeRanges_covering_cost_lt (u : indexInfo)
    (qvals : List ColumnID) (m : qvalueRangeMap)
    (hu : u.isCoveringIndex qvals = true)
    (h1 : u.desc.columns.length ≤ 2 ^ 100)
    (h2 : u.index.columnIDs.length ≤ 2 ^ 100) :
    (u.analyzeRanges qvals m).cost < maxFloat64 := by
  unfold indexInfo.analyzeRanges
  rw [hu]
  simp only [Bool.not_true, Bool.false_eq_true, if_false]
  have hc : (u.desc.columns.length : ℚ) ≤ 2 ^ 100 := by exact_mod_cast h1
  have hn : (u.index.columnIDs.length : ℚ) ≤ 2 ^ 100 := by exact_mod_cast h2
  have hp : (0 : ℚ) ≤ (u.desc.primaryIndex.columnIDs.length : ℚ) :=
    Nat.cast_nonneg _
  have hbase : (if u.isPrimary then
      1 + (u.desc.columns.length : ℚ) -
        (u.desc.primaryIndex.columnIDs.length : ℚ)
    else (u.index.columnIDs.length : ℚ)) ≤ 1 + 2 ^ 100 := by
    split_ifs
    · linarith
    · linarith
  set base : ℚ := if u.isPrimary then
      1 + (u.desc.columns.length : ℚ) -
        (u.desc.primaryIndex.columnIDs.length : ℚ)
    else (u.index.columnIDs.length : ℚ) with hbdef
  split_ifs with hse
  · have hstep : base * 1000 ≤ (1 + 2 ^ 100) * 1000 :=
      mul_le_mul_of_nonneg_right hbase (by norm_num)
    refine lt_of_le_of_lt hstep ?_
    norm_num [maxFloat64]
  · have hsum : 1 ≤ (makeStartInfo m u.index.columnIDs).length +
        (makeEndInfo m u.index.columnIDs).length := by omega
    have hs1 : (1 : ℚ) ≤ ((makeStartInfo m u.index.columnIDs).length : ℚ) +
        ((makeEndInfo m u.index.columnIDs).length : ℚ) := by exact_mod_cast hsum
    have h0div : (0 : ℚ) ≤
        ((u.index.columnIDs.length : ℚ) + (u.index.columnIDs.length : ℚ)) /
          (((makeStartInfo m u.index.columnIDs).length : ℚ) +
            ((makeEndInfo m u.index.columnIDs).length : ℚ)) :=
      div_nonneg (add_nonneg (Nat.cast_nonneg _) (Nat.cast_nonneg _))
        (add_nonneg (Nat.cast_nonneg _) (Nat.cast_nonneg _))
    have hdiv : ((u.index.columnIDs.length : ℚ) +
          (u.index.columnIDs.length : ℚ)) /
          (((makeStartInfo m u.index.columnIDs).length : ℚ) +
            ((makeEndInfo m u.index.columnIDs).length : ℚ)) ≤ 2 ^ 101 := by
      refine le_trans (div_le_self
        (add_nonneg (Nat.cast_nonneg _) (Nat.cast_nonneg _)) hs1) ?_
      have : (2 : ℚ) ^ 101 = 2 ^ 100 + 2 ^ 100 := by norm_num [pow_succ]
      linarith
    have hstep : base * (((u.index.columnIDs.length : ℚ) +
          (u.index.columnIDs.length : ℚ)) /
          (((makeStartInfo m u.index.columnIDs).length : ℚ) +
            ((makeEndInfo m u.index.columnIDs).length : ℚ))) ≤
        (1 + 2 ^ 100) * 2 ^ 101 := by
      refine le_trans (mul_le_mul_of_nonneg_right hbase h0div) ?_
      exact mul_le_mul_of_nonneg_left hdiv (by norm_num)
    refine lt_of_le_of_lt hstep ?_
    norm_num [maxFloat64]

/-- C8: the primary index always covers; a secondary index covers iff every
referenced column is among its key columns or — only for a non-unique
index — among the primary-key columns; a non-covering candidate keeps its
bound lists untouched and gets cost `math.MaxFloat64`, so a covering
candidate (of bounded width) always costs strictly less. -/
theorem coveringRule (u v : indexInfo) (qvals : List ColumnID)
    (m : qvalueRangeMap) :
    (v.isCoveringIndex qvals = true ↔
      (v.isPrimary = true ∨ ∀ c ∈ qvals, c ∈ v.index.columnIDs ∨
        (v.index.unique = false ∧ c ∈ v.desc.primaryIndex.columnIDs))) ∧
    (v.isCoveringIndex qvals = false →
      (v.analyzeRanges qvals m).cost = maxFloat64 ∧
      (v.analyzeRanges qvals m).start = v.start ∧
      (v.analyzeRanges qvals m).end_ = v.end_) ∧
    (u.isCoveringIndex qvals = true → v.isCoveringIndex qvals = false →
      u.desc.columns.length ≤ 2 ^ 100 → u.index.columnIDs.length ≤ 2 ^ 100 →
      (u.analyzeRanges qvals m).cost < (v.analyzeRanges qvals m).cost) := by
  refine ⟨?_, ?_, ?_⟩
  · simp [indexInfo.isCoveringIndex, List.all_eq_true]
  · intro hv
    rw [analyzeRanges_noncovering v qvals m hv]
    exact ⟨rfl, rfl, rfl⟩
  · intro hu hv h1 h2
    rw [analyzeRanges_noncovering v qvals m hv]
    exact analyzeRanges_covering_cost_lt u qvals m hu h1 h2

/-- Witness for C8: under the query referencing `a` and `b`, the unique
secondary index on `b` does not cover, while the primary index does and
costs less. -/
theorem coveringRule_witness :
    (mkIndexInfo descSeven descSeven.primaryIndex true).isCoveringIndex
        [0, 1] = true ∧
    (mkIndexInfo descSeven idxUniqueB false).isCoveringIndex [0, 1]
        = false ∧
    ((mkIndexInfo descSeven descSeven.primaryIndex true).analyzeRanges
        [0, 1] (emptyRangeMap.analyzeExpr filterEqB)).cost <
      ((mkIndexInfo descSeven idxUniqueB false).analyzeRanges [0, 1]
        (emptyRangeMap.analyzeExpr filterEqB)).cost :=
  ⟨by decide, by decide,
    (coveringRule (mkIndexInfo descSeven descSeven.primaryIndex true)
        (mkIndexInfo descSeven idxUniqueB false) [0, 1]
        (emptyRangeMap.analyzeExpr filterEqB)).2.2 (by decide) (by decide)
      (by decide) (by decide)⟩

/-! ## Claim C9 -/

/-- C9: `intersect` and `union` first validate the candidate's operator and
abort (modelled by `none`) exactly when it is outside `{GE, GT}` for a start
bound or outside `{LE, LT}` for an end bound; with a conforming operator
they never abort and behave as the unchecked operations; and the analyzer's
skip of an unusable comparison returns the map unchanged, not an abort. -/
theorem checked_abort_rule (q n : qvalueInfo) (start : Bool)
    (m : qvalueRangeMap) (op : COp) (l r : Expr) :
    (q.intersectChecked n start = none ↔
      ¬(if start then n.op = .ge ∨ n.op = .gt
        else n.op = .le ∨ n.op = .lt)) ∧
    (q.unionChecked n start = none ↔
      ¬(if start then n.op = .ge ∨ n.op = .gt
        else n.op = .le ∨ n.op = .lt)) ∧
    ((if start then n.op = .ge ∨ n.op = .gt
        else n.op = .le ∨ n.op = .lt) →
      q.intersectChecked n start = some (q.intersect n start) ∧
      q.unionChecked n start = some (q.union n start)) ∧
    (¬(op = .eq ∨ op = .lt ∨ op = .le ∨ op = .gt ∨ op = .ge) →
      m.analyzeComparisonExpr op l r = m) := by
  refine ⟨?_, ?_, ?_, ?_⟩
  · cases start <;>
      simp [qvalueInfo.intersectChecked, qvalueInfo.assertStartOp,
        qvalueInfo.assertEndOp]
  · cases start <;>
      simp [qvalueInfo.unionChecked, qvalueInfo.assertStartOp,
        qvalueInfo.assertEndOp]
  · intro hok
    cases start <;>
      simp_all [qvalueInfo.intersectChecked, qvalueInfo.unionChecked,
        qvalueInfo.assertStartOp, qvalueInfo.assertEndOp]
  · intro hne
    unfold qvalueRangeMap.analyzeComparisonExpr
    rw [if_neg hne]

/-- Witness for C9: an `EQ` candidate as a start bound aborts, a `GT` one
does not, and an unusable `NE` comparison is silently skipped. -/
theorem checked_abort_rule_witness :
    (⟨some 1, .ge⟩ : qvalueInfo).intersectChecked ⟨some 3, .eq⟩ true
        = none ∧
    (⟨some 1, .ge⟩ : qvalueInfo).intersectChecked ⟨some 3, .gt⟩ true
        = some ((⟨some 1, .ge⟩ : qvalueInfo).intersect ⟨some 3, .gt⟩ true) ∧
    emptyRangeMap.analyzeComparisonExpr .ne (.qval 0) (.constE (some 1))
        = emptyRangeMap :=
  ⟨(checked_abort_rule ⟨some 1, .ge⟩ ⟨some 3, .eq⟩ true emptyRangeMap .ne
        (.qval 0) (.constE (some 1))).1.mpr (by decide),
    ((checked_abort_rule ⟨some 1, .ge⟩ ⟨some 3, .gt⟩ true emptyRangeMap .ne
        (.qval 0) (.constE (some 1))).2.2.1 (by decide)).1,
    (checked_abort_rule ⟨some 1, .ge⟩ ⟨some 3, .gt⟩ true emptyRangeMap .ne
        (.qval 0) (.constE (some 1))).2.2.2 (by decide)⟩

/-! ## Claim C10 -/

/-- C10: when the scan requests an explicit secondary index, the candidate
list contains only that index, so it is always the one committed, with its
computed start and end keys, regardless of its cost. -/
theorem selectIndex_explicit (s : scanNode) (desc : TableDescriptor)
    (filter : Expr) (idx : IndexDescriptor) (hd : s.desc = some desc)
    (hf : s.filter = some filter) (hi : s.index = some idx)
    (hsec : s.isSecondaryIndex = true) :
    (selectIndex s).index = some idx ∧
    (selectIndex s).startKey
        = ((mkIndexInfo desc idx false).analyzeRanges s.qvals
            (emptyRangeMap.analyzeExpr filter)).makeStartKey ∧
    (selectIndex s).endKey
        = ((mkIndexInfo desc idx false).analyzeRanges s.qvals
            (emptyRangeMap.analyzeExpr filter)).makeEndKey := by
  unfold selectIndex
  rw [hd, hf]
  dsimp only
  rw [hsec, hi]
  simp only [if_true, Option.getD_some, List.map_cons, List.map_nil]
  rw [goSort_singleton]
  dsimp only
  refine ⟨?_, rfl, rfl⟩
  rw [(analyzeRanges_fields (mkIndexInfo desc idx false) s.qvals
    (emptyRangeMap.analyzeExpr filter)).1]
  rfl

/-- Witness for C10: the explicitly requested index `idxUniqueB` is
committed even though it is non-covering for the scan. -/
theorem selectIndex_explicit_witness :
    scanExplicit.desc = some descSeven ∧
    scanExplicit.filter = some filterEqB ∧
    scanExplicit.index = some idxUniqueB ∧
    scanExplicit.isSecondaryIndex = true ∧
    ((selectIndex scanExplicit).index = some idxUniqueB ∧
      (selectIndex scanExplicit).startKey
          = ((mkIndexInfo descSeven idxUniqueB false).analyzeRanges
              scanExplicit.qvals
              (emptyRangeMap.analyzeExpr filterEqB)).makeStartKey ∧
      (selectIndex scanExplicit).endKey
          = ((mkIndexInfo descSeven idxUniqueB false).analyzeRanges
              scanExplicit.qvals
              (emptyRangeMap.analyzeExpr filterEqB)).makeEndKey) :=
  ⟨rfl, rfl, rfl, rfl,
    selectIndex_explicit scanExplicit descSeven filterEqB idxUniqueB
      rfl rfl rfl rfl⟩

end SqlSelect
